import Mathlib

/-!
Verification of the spreadsheet-grid core of the mindrepcrm repository.

The development shallowly embeds the grid engine's pure logic:

* the clipboard matrix codec (`parseClipboard` from the clipboard utility
  module, `buildClipboardText` from the glide grid component), modelled over
  `List Char` so that the JavaScript string primitives `replace`, `split` and
  `join` become explicit recursive functions;
* the matrix-apply engine, undo/redo manager and header-mapped paste of
  `MasterLeads.tsx`, modelled over an explicit row-store state.  A record is
  observed through the row store as a finite map from field key to value, so
  record fields are modelled as `Finmap (fun _ : String => String)` (an SQL
  NULL and an absent dynamic column are indistinguishable to every read in the
  component, which uses `record[key] ?? null`);
* the fill-pattern deriver of `TempLeads.tsx` (single-column branch);
* the sort/filter derivation (`filteredLeads`) of `TempLeads.tsx`;
* the grid-preference loader of `gridPrefs.ts`.

Platform primitives (JavaScript `Number`, `Date`, `toLowerCase`,
`localeCompare`, JSON parsing, `localStorage`) are modelled on the input
subsets the theorems exercise; each model notes its subset in its doc comment.
-/

/-- JavaScript strings, modelled as lists of characters. -/
abbrev Str := List Char

/-- One pass of the JavaScript global replace of the two-character sequence
CR LF by LF, scanning left to right without overlap. -/
def replaceCRLF : Str → Str
  | [] => []
  | [c] => [c]
  | c₁ :: c₂ :: rest =>
    if c₁ = '\r' ∧ c₂ = '\n' then '\n' :: replaceCRLF rest
    else c₁ :: replaceCRLF (c₂ :: rest)

/-- `text.replace(/\r\n/g, '\n').replace(/\r/g, '\n')` from `parseClipboard`:
CRLF pairs become LF, then every remaining CR becomes LF. -/
def normalizeNewlines (t : Str) : Str :=
  (replaceCRLF t).map (fun c => if c = '\r' then '\n' else c)

/-- Helper for `splitCh`: push a character onto the first piece. -/
def consHead (x : Char) : List Str → List Str
  | [] => [[x]]
  | h :: t => (x :: h) :: t

/-- JavaScript `String.prototype.split` with a one-character separator:
every occurrence separates, empty pieces are kept, the empty string splits
to one empty piece. -/
def splitCh (c : Char) : Str → List Str
  | [] => [[]]
  | x :: xs => if x = c then [] :: splitCh c xs else consHead x (splitCh c xs)

/-- JavaScript `Array.prototype.join` with a string separator. -/
def joinSep (sep : Str) : List Str → Str
  | [] => []
  | [x] => x
  | x :: y :: xs => x ++ sep ++ joinSep sep (y :: xs)

/-- `parseClipboard` from the clipboard utility module: normalize CRLF/CR to
LF, split on LF, keep only lines of positive length, split each kept line on
TAB; an empty matrix falls back to `[[]]`. -/
def parseClipboard (text : Str) : List (List Str) :=
  let rows := splitCh '\n' (normalizeNewlines text)
  let matrix := (rows.filter (fun r => !r.isEmpty)).map (splitCh '\t')
  if matrix.isEmpty then [[]] else matrix

/-- Drop the fully-empty lines at the end of a line list, keeping interior
empty lines.  Used only by `parseClipboardSpec` below. -/
def dropTrailingEmpty (ls : List Str) : List Str :=
  (ls.reverse.dropWhile (·.isEmpty)).reverse

/-- The decoder as the specification sentence words it (for comparison with
the implementation `parseClipboard`): normalize CRLF/CR to LF, split on LF,
drop only the fully-empty trailing lines, split each line on TAB; the empty
input yields an empty matrix (zero rows). -/
def parseClipboardSpec (text : Str) : List (List Str) :=
  if text.isEmpty then []
  else (dropTrailingEmpty (splitCh '\n' (normalizeNewlines text))).map (splitCh '\t')

/-- `buildClipboardText` from the glide grid component, on text cells: when
`withHeaders` is set and a first row exists, prepend one header line built
from the column labels at `startCol` onward (`?.label || ''` turns a missing
label into the empty string); join cells with TAB and rows with LF. -/
def buildClipboardText (cells : List (List Str)) (withHeaders : Bool)
    (labels : List Str) (startCol : Nat) : Str :=
  let headerRows : List Str :=
    if withHeaders then
      match cells with
      | [] => []
      | r0 :: _ =>
        [joinSep ['\t']
          ((List.range r0.length).map (fun idx => (labels.get? (startCol + idx)).getD []))]
    else []
  let rowsText := headerRows ++ cells.map (fun row => joinSep ['\t'] row)
  joinSep ['\n'] rowsText

/-- JavaScript whitespace characters relevant to `String.prototype.trim` on
the inputs exercised here. -/
def isJsSpace (c : Char) : Bool :=
  c == ' ' || c == '\t' || c == '\n' || c == '\r'

/-- `String.prototype.trim`: strip whitespace from both ends. -/
def jsTrim (s : String) : String :=
  String.mk (((s.toList.dropWhile isJsSpace).reverse.dropWhile isJsSpace).reverse)

/-- `String.prototype.toLowerCase`, modelled character-wise via `Char.toLower`
(exact on the ASCII inputs the theorems use). -/
def jsToLower (s : String) : String :=
  String.mk (s.toList.map Char.toLower)

/-- Whether `l` starts with `pre`. -/
def startsWithChars : Str → Str → Bool
  | [], _ => true
  | _ :: _, [] => false
  | p :: ps, x :: xs => p == x && startsWithChars ps xs

/-- Substring occurrence, the character-list core of
`String.prototype.includes`. -/
def containsSub (needle : Str) : Str → Bool
  | [] => startsWithChars needle []
  | x :: xs => startsWithChars needle (x :: xs) || containsSub needle xs

/-- `hay.includes(needle)` for JavaScript strings. -/
def jsIncludes (hay needle : String) : Bool :=
  containsSub needle.toList hay.toList

/-- A JavaScript object used as a write payload: field key to string-or-null,
in property insertion order with unique keys (maintained by `objSet`). -/
abbrev Payload := List (String × Option String)

/-- JavaScript object property assignment `o[k] = v`: overwrite in place when
the key exists, append otherwise. -/
def objSet (o : Payload) (k : String) (v : Option String) : Payload :=
  if o.any (fun kv => kv.1 == k) then
    o.map (fun kv => if kv.1 == k then (k, v) else kv)
  else o ++ [(k, v)]

/-- A record's dynamic fields as observed through the row store: a finite map
from field key to value.  Writing SQL NULL to a column is observationally the
removal of the key, since every read in the components is `row[key] ?? null`. -/
abbrev Flds := Finmap (fun _ : String => String)

/-- One column write of an update payload: a string value upserts the key,
null erases it. -/
def setField (f : Flds) (k : String) : Option String → Flds
  | none => f.erase k
  | some v => f.insert k v

/-- Apply a whole update payload to a record's fields, key by key. -/
def applyPayload (p : Payload) (f : Flds) : Flds :=
  p.foldl (fun f kv => setField f kv.1 kv.2) f

/-- A lead record of the row store: stable identity, pinned flag, dynamic
fields.  Identities are modelled as the naturals handed out by the store. -/
structure Lead where
  id : Nat
  pinned : Bool
  fields : Flds
deriving DecidableEq

/-- A column definition from the `lead_fields` table (the parts the grid
logic reads). -/
structure LeadField where
  field_key : String
  label : String
deriving DecidableEq

/-- The row store as observed by one grid view: the lead list in `created_at`
order plus the next fresh identity. -/
structure StoreState where
  leads : List Lead
  nextId : Nat
deriving DecidableEq

/-- One element of `UndoAction.changes` in `MasterLeads.tsx`. -/
structure FieldChange where
  id : Nat
  fieldKey : String
  prev : Option String
  next : Option String
deriving DecidableEq

/-- The `UndoAction` record of `MasterLeads.tsx`: the field-level change list
plus the records the action inserted. -/
structure UndoAction where
  changes : List FieldChange
  insertedRows : List Lead
deriving DecidableEq

/-- `(lead as Record)[key] ?? null`. -/
def lookupField (l : Lead) (k : String) : Option String :=
  l.fields.lookup k

/-- The search haystack of the `filteredLeads` memo in `MasterLeads.tsx`:
the base fields, with null and empty values dropped (`filter(Boolean)`),
joined by one space, lowercased. -/
def msSearchHay (l : Lead) : String :=
  jsToLower (String.intercalate " "
    ((["name", "email", "phone", "website", "outreach_method"].filterMap
      (lookupField l)).filter (fun s => !(s == ""))))

/-- The `filteredLeads` memo of `MasterLeads.tsx`: free-text search over the
base fields; an all-whitespace query keeps every lead. -/
def msFilteredLeads (searchQuery : String) (leads : List Lead) : List Lead :=
  let q := jsToLower (jsTrim searchQuery)
  if q == "" then leads
  else leads.filter (fun l => jsIncludes (msSearchHay l) q)

/-- The inner column loop of `applyMatrix`: walk the matrix row's cells from
column `startCol`, stopping (`break`) at the grid width; each cell trims to a
value, empty trims becoming null. -/
def rowPayloadGo (orderedFields : List LeadField) (startCol : Nat) :
    Nat → List String → Payload → Payload
  | _, [], acc => acc
  | c, cell :: rest, acc =>
    if orderedFields.length ≤ startCol + c then acc
    else
      match orderedFields.get? (startCol + c) with
      | none => acc
      | some targetField =>
        let value := jsTrim cell
        rowPayloadGo orderedFields startCol (c + 1) rest
          (objSet acc targetField.field_key (if value.length > 0 then some value else none))

/-- The update payload `updatesRow` that one matrix row produces. -/
def buildRowPayload (orderedFields : List LeadField) (startCol : Nat)
    (cells : List String) : Payload :=
  rowPayloadGo orderedFields startCol 0 cells []

/-- What `applyMatrix` does with one matrix row: update the record at the
target visible-row index, insert a synthesized record when the index is past
the visible rows and auto-add is on, or do nothing. -/
inductive RowPlan where
  | upd (target : Lead) (payload : Payload)
  | ins (payload : Payload)
  | skip
deriving DecidableEq

/-- The insert seed `{ name: 'New Lead', outreach_method: null }`. -/
def insertSeed : Payload :=
  [("name", some "New Lead"), ("outreach_method", none)]

/-- Overlay the entries of `p` onto the object `base`, in order. -/
def overlayPayload (base : Payload) (p : Payload) : Payload :=
  p.foldl (fun o kv => objSet o kv.1 kv.2) base

/-- The per-row branch of the `applyMatrix` loop. -/
def planRow (filtered : List Lead) (autoAddRows : Bool) (rowIndex : Nat)
    (payload : Payload) : RowPlan :=
  match filtered.get? rowIndex with
  | some targetRow => if payload.isEmpty then .skip else .upd targetRow payload
  | none => if autoAddRows then .ins (overlayPayload insertSeed payload) else .skip

/-- Pair each element with its 0-based position (the JavaScript loop index). -/
def withIdx {α : Type} : List α → Nat → List (α × Nat)
  | [], _ => []
  | x :: xs, n => (x, n) :: withIdx xs (n + 1)

/-- The whole row loop of `applyMatrix` as a plan list. -/
def planMatrix (filtered : List Lead) (orderedFields : List LeadField)
    (startRow startCol : Nat) (autoAddRows : Bool)
    (matrix : List (List String)) : List RowPlan :=
  (withIdx matrix 0).map (fun rw =>
    planRow filtered autoAddRows (startRow + rw.2)
      (buildRowPayload orderedFields startCol rw.1))

/-- The undo-log tuples one row plan records: one `{id, fieldKey, prev, next}`
per payload entry of an update, nothing otherwise. -/
def planChanges : RowPlan → List FieldChange
  | .upd t p => p.map (fun kv => ⟨t.id, kv.1, t.fields.lookup kv.1, kv.2⟩)
  | _ => []

/-- The enqueued update of a row plan, if any. -/
def planUpdate : RowPlan → Option (Nat × Payload)
  | .upd t p => some (t.id, p)
  | _ => none

/-- The enqueued insert payload of a row plan, if any. -/
def planInsert : RowPlan → Option Payload
  | .ins p => some p
  | _ => none

/-- `supabase.from('leads').update(payload).eq('id', id)` as observed through
the store: rewrite the fields of the record with that identity. -/
def dbUpdate (ls : List Lead) (id : Nat) (p : Payload) : List Lead :=
  ls.map (fun l => if l.id = id then { l with fields := applyPayload p l.fields } else l)

/-- Net effect of the batch of independent per-record updates (they target
distinct identities, so sequential execution models `Promise.all`). -/
def runUpdates (ups : List (Nat × Payload)) (ls : List Lead) : List Lead :=
  ups.foldl (fun ls u => dbUpdate ls u.1 u.2) ls

/-- The fields of a freshly inserted record, built from its insert payload. -/
def payloadToFields (p : Payload) : Flds :=
  applyPayload p ∅

/-- The records a successful batch insert returns: fresh consecutive
identities, unpinned, fields from the payloads. -/
def mkInserted (nextId : Nat) (ps : List Payload) : List Lead :=
  (withIdx ps 0).map (fun pi => ⟨nextId + pi.2, false, payloadToFields pi.1⟩)

/-- `applyMatrix` of `MasterLeads.tsx` on the store state, returning the new
state and the undo action it pushes (none when nothing changed, matching the
component, which then leaves both stacks alone).  The store calls are assumed
to succeed, which is the claims' "successful apply" reading. -/
def applyMatrix (startRow startCol : Nat) (matrix : List (List String))
    (orderedFields : List LeadField) (autoAddRows : Bool) (searchQuery : String)
    (st : StoreState) : StoreState × Option UndoAction :=
  if matrix.isEmpty then (st, none) else
  let filtered := msFilteredLeads searchQuery st.leads
  let plans := planMatrix filtered orderedFields startRow startCol autoAddRows matrix
  let changes := (plans.map planChanges).flatten
  let updates := plans.filterMap planUpdate
  let inserts := plans.filterMap planInsert
  let leads1 := runUpdates updates st.leads
  let inserted := mkInserted st.nextId inserts
  let st2 : StoreState := ⟨leads1 ++ inserted, st.nextId + inserts.length⟩
  let action :=
    if !inserts.isEmpty then some (⟨changes, inserted⟩ : UndoAction)
    else if !changes.isEmpty then some (⟨changes, []⟩ : UndoAction)
    else none
  (st2, action)

/-- One step of rebuilding `updatesById`: `payload = map.get(id) || {};
payload[fieldKey] = v; map.set(id, payload)` with insertion-order iteration. -/
def addChange (acc : List (Nat × Payload)) (id : Nat) (k : String)
    (v : Option String) : List (Nat × Payload) :=
  if acc.any (fun g => g.1 == id) then
    acc.map (fun g => if g.1 == id then (g.1, objSet g.2 k v) else g)
  else acc ++ [(id, objSet [] k v)]

/-- The `updatesById` map of `applyUndoAction`, grouping the change list by
record identity, taking `next` on redo and `prev` on undo. -/
def groupChangesById (changes : List FieldChange) (useNext : Bool) :
    List (Nat × Payload) :=
  changes.foldl (fun acc ch =>
    addChange acc ch.id ch.fieldKey (if useNext then ch.next else ch.prev)) []

/-- `applyUndoAction` of `MasterLeads.tsx`: on undo delete the inserted rows
and write every `prev`; on redo re-insert them (original identities kept) and
write every `next`. -/
def applyUndoAction (action : UndoAction) (useNext : Bool) (st : StoreState) :
    StoreState :=
  let leads1 :=
    if !action.insertedRows.isEmpty then
      if useNext then st.leads ++ action.insertedRows
      else
        let ids := action.insertedRows.map (·.id)
        if !ids.isEmpty then st.leads.filter (fun l => !(ids.contains l.id))
        else st.leads
    else st.leads
  let leads2 :=
    if !action.changes.isEmpty then
      runUpdates (groupChangesById action.changes useNext) leads1
    else leads1
  ⟨leads2, st.nextId⟩

/-- The header lookup map of `applyMatrixWithHeaderMap`: lowercased field key
and label of every visible column map to its index, later columns winning on
collision (JavaScript `Map.set` overwrites). -/
def fieldMapGet (orderedFields : List LeadField) (s : String) : Option Nat :=
  ((withIdx orderedFields 0).reverse.find? (fun fi =>
    jsToLower fi.1.field_key == s || jsToLower fi.1.label == s)).map (·.2)

/-- Remap one data row by the header's column map: start from a full-width row
of empty strings and place each cell whose column matched a field at that
field's index; cells of unmatched columns are dropped. -/
def mappedRowOf (numFields : Nat) (columnMap : List (Option Nat))
    (row : List String) : List String :=
  (withIdx row 0).foldl (fun out ci =>
    match columnMap.get? ci.2 with
    | some (some j) => out.set j ci.1
    | _ => out) (List.replicate numFields "")

/-- `applyMatrixWithHeaderMap` of `MasterLeads.tsx`. -/
def applyMatrixWithHeaderMap (startRow : Nat) (matrix : List (List String))
    (orderedFields : List LeadField) (autoAddRows : Bool) (searchQuery : String)
    (st : StoreState) : StoreState × Option UndoAction :=
  if matrix.length < 2 then
    applyMatrix startRow 0 matrix orderedFields autoAddRows searchQuery st
  else
    let headerRow := (matrix.headD []).map (fun v => jsToLower (jsTrim v))
    let columnMap := headerRow.map (fieldMapGet orderedFields)
    let matchCount := (columnMap.filter (fun o => o.isSome)).length
    if matchCount < 2 then
      applyMatrix startRow 0 matrix orderedFields autoAddRows searchQuery st
    else
      let dataRows := matrix.tail
      let mapped := dataRows.map (mappedRowOf orderedFields.length columnMap)
      applyMatrix startRow 0 mapped orderedFields autoAddRows searchQuery st

/-- Store-state sanity: identities are pairwise distinct and below the next
fresh identity.  Both facts hold of every state the store produces. -/
def WFState (st : StoreState) : Prop :=
  (st.leads.map (·.id)).Nodup ∧ ∀ l ∈ st.leads, l.id < st.nextId

/-- Pointwise view of `runUpdates` used in the proofs: the writes one record
sees from an update batch, in batch order. -/
def leadUpd (ups : List (Nat × Payload)) (l : Lead) : Lead :=
  ups.foldl (fun l u =>
    if l.id = u.1 then { l with fields := applyPayload u.2 l.fields } else l) l

/-- The update that `applyUndoAction` reconstructs from a row plan's change
block: the forward payload on redo, the recorded previous values on undo. -/
def planSelUpdate (useNext : Bool) : RowPlan → Option (Nat × Payload)
  | .upd t p =>
    some (t.id, p.map (fun kv => (kv.1, if useNext then kv.2 else t.fields.lookup kv.1)))
  | _ => none

/-- Numeric value of a decimal digit character. -/
def digitVal (c : Char) : Nat :=
  c.toNat - '0'.toNat

/-- Value of a list of decimal digit characters. -/
def digitsToNat (ds : Str) : Nat :=
  ds.foldl (fun n c => n * 10 + digitVal c) 0

/-- `value.replace(/,/g, '')`. -/
def removeCommas (s : String) : String :=
  String.mk (s.toList.filter (fun c => !(c == ',')))

/-- An exact rational with an unnormalized positive denominator, modelling
the JavaScript number values the grid code computes.  All arithmetic here is
exact; it agrees with the platform's floating point on every value the
theorems exercise. -/
structure Frac where
  num : Int
  den : Int
deriving DecidableEq

/-- Embed an integer. -/
def Frac.ofInt (n : Int) : Frac :=
  ⟨n, 1⟩

/-- Embed a natural number. -/
def Frac.ofNat (n : Nat) : Frac :=
  ⟨(n : Int), 1⟩

/-- Exact addition. -/
def Frac.add (a b : Frac) : Frac :=
  ⟨a.num * b.den + b.num * a.den, a.den * b.den⟩

/-- Exact subtraction. -/
def Frac.sub (a b : Frac) : Frac :=
  ⟨a.num * b.den - b.num * a.den, a.den * b.den⟩

/-- Exact multiplication. -/
def Frac.mul (a b : Frac) : Frac :=
  ⟨a.num * b.num, a.den * b.den⟩

/-- Exact division by a positive integer. -/
def Frac.divInt (a : Frac) (k : Int) : Frac :=
  ⟨a.num, a.den * k⟩

/-- Negation. -/
def Frac.neg (a : Frac) : Frac :=
  ⟨-a.num, a.den⟩

/-- Strict comparison (sound for positive denominators, the invariant every
constructor here maintains). -/
def Frac.blt (a b : Frac) : Bool :=
  a.num * b.den < b.num * a.den

/-- Whether the value is an integer. -/
def Frac.isInt (a : Frac) : Bool :=
  a.num % a.den == 0

/-- Floor (positive denominator; Lean's integer division by a positive
divisor rounds down). -/
def Frac.floor (a : Frac) : Int :=
  a.num / a.den

/-- Truncation toward zero, as JavaScript's `ToIntegerOrInfinity`. -/
def Frac.trunc (a : Frac) : Int :=
  if 0 ≤ a.num then a.num / a.den else -((-a.num) / a.den)

/-- The JavaScript `Number` conversion on the decimal subset the grid code
feeds it: whitespace-only is 0, an optional sign, digits with an optional
fractional part.  `none` models NaN; hexadecimal, exponent and Infinity
notations are outside the modelled subset and also yield `none`. -/
def jsNum (s : String) : Option Frac :=
  let cs := ((s.toList.dropWhile isJsSpace).reverse.dropWhile isJsSpace).reverse
  if cs.isEmpty then some (Frac.ofNat 0)
  else
    let signed : Bool × Str :=
      match cs with
      | '-' :: rest => (true, rest)
      | '+' :: rest => (false, rest)
      | _ => (false, cs)
    let intPart := signed.2.takeWhile Char.isDigit
    let rest2 := signed.2.dropWhile Char.isDigit
    let mag : Option Frac :=
      match rest2 with
      | [] => if intPart.isEmpty then none else some (Frac.ofNat (digitsToNat intPart))
      | '.' :: frac =>
        if frac.all Char.isDigit && !(intPart.isEmpty && frac.isEmpty) then
          some (Frac.add (Frac.ofNat (digitsToNat intPart))
            (Frac.divInt (Frac.ofNat (digitsToNat frac)) ((10 : Int) ^ frac.length)))
        else none
      | _ => none
    mag.map (fun x => if signed.1 then Frac.neg x else x)

/-- `value.match(/^(.*?)(\d+)$/)` of the fill deriver: the lazy prefix forces
the digit group to be the maximal trailing digit run; the result carries the
prefix, the numeric value and the digit width. -/
def parseTrailing (s : String) : Option (String × Nat × Nat) :=
  let rev := s.toList.reverse
  let digits := (rev.takeWhile Char.isDigit).reverse
  if digits.isEmpty then none
  else some (String.mk ((rev.dropWhile Char.isDigit).reverse),
    (digitsToNat digits, digits.length))

/-- Days since 1970-01-01 of a civil date (valid for years from 1970 on,
which the date parser below guarantees). -/
def daysFromCivil (y m d : Nat) : Nat :=
  let yy := if m ≤ 2 then y - 1 else y
  let era := yy / 400
  let yoe := yy % 400
  let mp := if 2 < m then m - 3 else m + 9
  let doy := (153 * mp + 2) / 5 + d - 1
  let doe := yoe * 365 + yoe / 4 - yoe / 100 + doy
  era * 146097 + doe - 719468

/-- Shared core of the date parser: eight digit characters of a
`YYYY-MM-DD` shape to a UTC-midnight epoch-millisecond value. -/
def dateCoreMs (y3 y2 y1 y0 m1 m0 d1 d0 : Char) : Option Int :=
  if [y3, y2, y1, y0, m1, m0, d1, d0].all Char.isDigit then
    let y := digitsToNat [y3, y2, y1, y0]
    let m := digitsToNat [m1, m0]
    let d := digitsToNat [d1, d0]
    if 1970 ≤ y ∧ 1 ≤ m ∧ m ≤ 12 ∧ 1 ≤ d ∧ d ≤ 31 then
      some ((daysFromCivil y m d : Int) * 86400000)
    else none
  else none

/-- The JavaScript `Date` parser on the ISO subset the theorems exercise:
`YYYY-MM-DD`, optionally with an explicit UTC-midnight time part, parsed as
UTC — exactly as the platform treats these forms.  Every other input is
outside the modelled subset and yields `none` (models an invalid date). -/
def dateMs (s : String) : Option Int :=
  match s.toList with
  | [y3, y2, y1, y0, '-', m1, m0, '-', d1, d0] =>
    dateCoreMs y3 y2 y1 y0 m1 m0 d1 d0
  | [y3, y2, y1, y0, '-', m1, m0, '-', d1, d0,
      'T', '0', '0', ':', '0', '0', ':', '0', '0', 'Z'] =>
    dateCoreMs y3 y2 y1 y0 m1 m0 d1 d0
  | _ => none

/-- Civil date of a day count since 1970-01-01. -/
def civilFromDays (z0 : Nat) : Nat × Nat × Nat :=
  let z := z0 + 719468
  let era := z / 146097
  let doe := z % 146097
  let yoe := (doe - doe / 1460 + doe / 36524 - doe / 146096) / 365
  let y := yoe + era * 400
  let doy := doe - (365 * yoe + yoe / 4 - yoe / 100)
  let mp := (5 * doy + 2) / 153
  let d := doy - (153 * mp + 2) / 5 + 1
  let m := if mp < 10 then mp + 3 else mp - 9
  (if m ≤ 2 then y + 1 else y, m, d)

/-- Two-digit zero-padded decimal rendering. -/
def pad2 (n : Nat) : Str :=
  [Nat.digitChar (n / 10 % 10), Nat.digitChar (n % 10)]

/-- Four-digit zero-padded decimal rendering. -/
def pad4 (n : Nat) : Str :=
  [Nat.digitChar (n / 1000 % 10), Nat.digitChar (n / 100 % 10),
    Nat.digitChar (n / 10 % 10), Nat.digitChar (n % 10)]

/-- `new Date(ms).toISOString().slice(0, 10)` for the non-negative whole-day
timestamps the theorems exercise. -/
def isoSlice10 (ms : Int) : String :=
  let days := (ms / 86400000).toNat
  let c := civilFromDays days
  String.mk (pad4 c.1 ++ '-' :: pad2 c.2.1 ++ '-' :: pad2 c.2.2)

/-- `Math.round`: round half toward positive infinity. -/
def jsRound (x : Frac) : Int :=
  (Frac.add x ⟨1, 2⟩).floor

/-- Decimal digit rendering with explicit fuel (structural, so concrete
values evaluate in the kernel). -/
def natDigitsAux : Nat → Nat → Str
  | 0, _ => []
  | fuel + 1, n =>
    if n < 10 then [Nat.digitChar n]
    else natDigitsAux fuel (n / 10) ++ [Nat.digitChar (n % 10)]

/-- `String(n)` for a natural number. -/
def natToJsString (n : Nat) : String :=
  String.mk (natDigitsAux (n + 1) n)

/-- `String(i)` for an integer. -/
def intToJsString (i : Int) : String :=
  if i < 0 then "-" ++ natToJsString (-i).toNat else natToJsString i.toNat

/-- `s.padStart(width, '0')`. -/
def padStartZeros (width : Nat) (s : String) : String :=
  if width ≤ s.length then s
  else String.mk (List.replicate (width - s.length) '0' ++ s.toList)

/-- JavaScript number-to-string on the integer-valued subset the claims
exercise; a non-integral value renders as an exact fraction here, which
diverges from the platform's decimal output but is reached by no theorem. -/
def fracToJsString (x : Frac) : String :=
  if x.isInt then intToJsString x.trunc
  else intToJsString x.num ++ "/" ++ intToJsString x.den

/-- The single-column branch of `handleFillPattern` in `TempLeads.tsx` as a
function of the source-column values: the cell value the fill writes at
destination row offset `r`.  Branch order is the code's: numeric step, then
trailing-digit step, then date step, then verbatim cycling. -/
def deriveFillValueCol (baseValues : List String) (r : Nat) : String :=
  let first := (baseValues.get? 0).getD ""
  let second := (baseValues.get? 1).getD ""
  let n1 := jsNum (removeCommas first)
  let n2 := jsNum (removeCommas second)
  let d1 := dateMs first
  let d2 := dateMs second
  let t1 := parseTrailing first
  let t2 := parseTrailing second
  let step : Frac :=
    if n1.isSome ∧ n2.isSome ∧ first ≠ "" ∧ second ≠ "" then
      Frac.sub (n2.getD (Frac.ofNat 0)) (n1.getD (Frac.ofNat 0))
    else if t1.isSome ∧ t2.isSome then
      Frac.ofInt ((t2.map (fun t => (t.2.1 : Int))).getD 0 -
        (t1.map (fun t => (t.2.1 : Int))).getD 0)
    else if d1.isSome ∧ d2.isSome ∧ first ≠ "" ∧ second ≠ "" then
      Frac.divInt (Frac.ofInt (d2.getD 0 - d1.getD 0)) 86400000
    else Frac.ofNat 1
  if n1.isSome ∧ first ≠ "" then
    fracToJsString (Frac.add (n1.getD (Frac.ofNat 0)) (Frac.mul step (Frac.ofNat r)))
  else
    match t1 with
    | some t =>
      t.1 ++ padStartZeros t.2.2 (intToJsString
        (jsRound (Frac.add (Frac.ofNat t.2.1) (Frac.mul step (Frac.ofNat r)))))
    | none =>
      if d1.isSome ∧ first ≠ "" then
        isoSlice10 (Frac.trunc (Frac.add (Frac.ofInt (d1.getD 0))
          (Frac.mul (Frac.mul step (Frac.ofNat r)) (Frac.ofNat 86400000))))
      else (baseValues.get? (r % baseValues.length)).getD ""

/-- The whole single-column fill: the destination column extended to
`height` rows. -/
def fillColumn (baseValues : List String) (height : Nat) : List String :=
  (List.range height).map (deriveFillValueCol baseValues)

/-- Sort direction of one sort rule. -/
inductive SortDir
  | asc
  | desc
deriving DecidableEq

/-- One sort rule of the `sorts` list in `TempLeads.tsx`. -/
structure SortRule where
  fieldKey : String
  dir : SortDir
deriving DecidableEq

/-- Lexicographic character-list comparison — the model of `localeCompare`
(exact for the ASCII inputs the theorems use, where the default collation
agrees with code-point order on distinct letters). -/
def lexCmp : Str → Str → Ordering
  | [], [] => .eq
  | [], _ :: _ => .lt
  | _ :: _, [] => .gt
  | x :: xs, y :: ys =>
    if x < y then .lt else if y < x then .gt else lexCmp xs ys

/-- `av.localeCompare(bv)` as a three-way comparison. -/
def localeCompareOrd (a b : String) : Ordering :=
  lexCmp a.toList b.toList

/-- Three-way comparison of exact number values (the sign of the JavaScript
`an - bn`). -/
def fracCompare (a b : Frac) : Ordering :=
  if a.blt b then .lt else if b.blt a then .gt else .eq

/-- One sort rule's comparison in the `filteredLeads` comparator of
`TempLeads.tsx`: numeric when both values (commas stripped) are numbers and
neither trims to empty, lexicographic otherwise. -/
def ruleCmp (rule : SortRule) (a b : Lead) : Ordering :=
  let av := (a.fields.lookup rule.fieldKey).getD ""
  let bv := (b.fields.lookup rule.fieldKey).getD ""
  let an := jsNum (removeCommas av)
  let bn := jsNum (removeCommas bv)
  if an.isSome ∧ bn.isSome ∧ jsTrim av ≠ "" ∧ jsTrim bv ≠ "" then
    fracCompare (an.getD (Frac.ofNat 0)) (bn.getD (Frac.ofNat 0))
  else localeCompareOrd av bv

/-- The rule loop of the comparator: first non-tie rule decides (negated for
a descending rule); a full tie falls back to the original position. -/
def rulesCmp (sorts : List SortRule) (a b : Lead × Nat) : Ordering :=
  match sorts with
  | [] => compare a.2 b.2
  | rule :: rest =>
    let c := ruleCmp rule a.1 b.1
    if c = .eq then rulesCmp rest a b
    else if rule.dir = .asc then c else c.swap

/-- The full comparator of `filteredLeads` in `TempLeads.tsx`: pinned rows
first, then the sort rules, then the original position.  The position
tiebreak makes the comparator antisymmetric on the indexed entries, so the
sorted permutation is unique and any correct sort — here insertion sort —
computes exactly what the browser's `Array.prototype.sort` returns. -/
def entryCmp (sorts : List SortRule) (a b : Lead × Nat) : Ordering :=
  let ap : Nat := if a.1.pinned then 1 else 0
  let bp : Nat := if b.1.pinned then 1 else 0
  if ap ≠ bp then (if bp < ap then .lt else .gt)
  else if sorts.isEmpty then compare a.2 b.2
  else rulesCmp sorts a b

/-- The filter predicate of `filteredLeads` in `TempLeads.tsx`: the free-text
search over the base-field haystack ANDed with every active per-field
substring filter, all case-insensitive. -/
def tlPred (q : String) (filterEntries : List (String × String)) (l : Lead) : Bool :=
  (if q ≠ "" then jsIncludes (msSearchHay l) q else true) &&
  filterEntries.all (fun kv =>
    jsIncludes (jsToLower ((l.fields.lookup kv.1).getD "")) (jsToLower (jsTrim kv.2)))

/-- The `filteredLeads` memo of `TempLeads.tsx`: index the leads, filter,
sort by the comparator, project the leads back out. -/
def filteredLeadsTemp (leads : List Lead) (searchQuery : String)
    (filters : List (String × String)) (sorts : List SortRule) : List Lead :=
  let q := jsToLower (jsTrim searchQuery)
  let filterEntries := filters.filter (fun kv => (jsTrim kv.2).length > 0)
  let indexed := withIdx leads 0
  let filtered := indexed.filter (fun li => tlPred q filterEntries li.1)
  let sorted := List.insertionSort (fun a b => entryCmp sorts a b ≠ Ordering.gt) filtered
  sorted.map (·.1)

/-- The shape `JSON.parse` hands back for a stored preference blob, as the
component reads it: each field independently present or absent. -/
structure ParsedPrefs where
  order : Option (List String)
  hidden : Option (List String)
  autoAddRows : Option Bool
  widths : Option (List (String × Nat))
deriving DecidableEq

/-- The grid preferences record of `gridPrefs.ts` (widths as a finite
key-to-pixel map). -/
structure GridPrefs where
  order : List String
  hidden : List String
  autoAddRows : Bool
  widths : List (String × Nat)
deriving DecidableEq

/-- `defaultPrefs` of `gridPrefs.ts`: auto-add-rows starts on. -/
def defaultPrefs : GridPrefs :=
  { order := [], hidden := [], autoAddRows := true, widths := [] }

/-- `loadGridPrefs` of `gridPrefs.ts`, over a storage model (`localStorage`
as a partial map) and a JSON-parse model (`none` models a parse throw,
caught by the component). -/
def loadGridPrefs (hasWindow : Bool) (storage : String → Option String)
    (parseJson : String → Option ParsedPrefs) (key : String) : GridPrefs :=
  if !hasWindow then defaultPrefs
  else
    match storage ("gridPrefs:" ++ key) with
    | none => defaultPrefs
    | some raw =>
      match parseJson raw with
      | none => defaultPrefs
      | some p =>
        { order := p.order.getD [], hidden := p.hidden.getD [],
          autoAddRows := p.autoAddRows.getD true, widths := p.widths.getD [] }

theorem splitCh_ne_nil (c : Char) (xs : Str) : splitCh c xs ≠ [] := by
  induction xs with
  | nil => simp [splitCh]
  | cons x xs ih =>
    simp only [splitCh]
    split
    · simp
    · match h : splitCh c xs with
      | [] => exact absurd h ih
      | p :: ps => simp [consHead]

theorem mem_splitCh_not_sep {c : Char} {xs : Str} {p : Str}
    (hp : p ∈ splitCh c xs) : c ∉ p := by
  induction xs generalizing p with
  | nil =>
    simp [splitCh] at hp
    subst hp; simp
  | cons x xs ih =>
    simp only [splitCh] at hp
    by_cases hx : x = c
    · simp [hx] at hp
      rcases hp with hp | hp
      · subst hp; simp
      · exact ih hp
    · simp [hx] at hp
      match h : splitCh c xs with
      | [] => exact absurd h (splitCh_ne_nil c xs)
      | q :: qs =>
        rw [h] at hp
        simp [consHead] at hp
        rcases hp with hp | hp
        · subst hp
          intro hmem
          rcases List.mem_cons.mp hmem with h1 | h1
          · exact hx h1.symm
          · exact ih (h ▸ List.mem_cons_self q qs) h1
        · exact ih (h ▸ List.mem_cons_of_mem q hp)

theorem mem_of_mem_splitCh {c : Char} {xs : Str} {p : Str} {y : Char}
    (hy : y ∈ p) (hp : p ∈ splitCh c xs) : y ∈ xs := by
  induction xs generalizing p with
  | nil =>
    simp [splitCh] at hp
    subst hp; simp at hy
  | cons x xs ih =>
    simp only [splitCh] at hp
    by_cases hx : x = c
    · simp [hx] at hp
      rcases hp with hp | hp
      · subst hp; simp at hy
      · exact List.mem_cons_of_mem x (ih hy hp)
    · simp [hx] at hp
      match h : splitCh c xs with
      | [] => exact absurd h (splitCh_ne_nil c xs)
      | q :: qs =>
        rw [h] at hp
        simp [consHead] at hp
        rcases hp with hp | hp
        · subst hp
          rcases List.mem_cons.mp hy with h1 | h1
          · exact h1 ▸ List.mem_cons_self x xs
          · exact List.mem_cons_of_mem x (ih h1 (h ▸ List.mem_cons_self q qs))
        · exact List.mem_cons_of_mem x (ih hy (h ▸ List.mem_cons_of_mem q hp))

theorem joinSep_splitCh (c : Char) (xs : Str) :
    joinSep [c] (splitCh c xs) = xs := by
  induction xs with
  | nil => simp [splitCh, joinSep]
  | cons x xs ih =>
    simp only [splitCh]
    by_cases hx : x = c
    · subst hx
      simp only [if_pos rfl]
      match h : splitCh x xs with
      | [] => exact absurd h (splitCh_ne_nil x xs)
      | q :: qs =>
        rw [h] at ih
        simp [joinSep, ih]
    · simp only [if_neg hx]
      match h : splitCh c xs with
      | [] => exact absurd h (splitCh_ne_nil c xs)
      | q :: qs =>
        rw [h] at ih
        cases qs with
        | nil => simp [consHead, joinSep] at ih ⊢; simp [ih]
        | cons q2 qs2 => simp [consHead, joinSep] at ih ⊢; simp [ih]

theorem splitCh_no_sep {c : Char} {xs : Str} (h : c ∉ xs) :
    splitCh c xs = [xs] := by
  induction xs with
  | nil => simp [splitCh]
  | cons x xs ih =>
    simp only [splitCh]
    have hx : ¬x = c := fun he => h (he ▸ List.mem_cons_self x xs)
    rw [if_neg hx, ih (fun hm => h (List.mem_cons_of_mem x hm))]
    simp [consHead]

theorem splitCh_append_sep {c : Char} {p rest : Str} (h : c ∉ p) :
    splitCh c (p ++ c :: rest) = p :: splitCh c rest := by
  induction p with
  | nil => simp [splitCh]
  | cons x p ih =>
    have hx : ¬x = c := fun he => h (he ▸ List.mem_cons_self x p)
    simp only [List.cons_append, splitCh, if_neg hx, List.append_eq]
    rw [ih (fun hm => h (List.mem_cons_of_mem x hm))]
    simp [consHead]

theorem splitCh_joinSep {c : Char} {ps : List Str}
    (hps : ∀ p ∈ ps, c ∉ p) (hne : ps ≠ []) :
    splitCh c (joinSep [c] ps) = ps := by
  induction ps with
  | nil => exact absurd rfl hne
  | cons p ps ih =>
    cases ps with
    | nil =>
      simp [joinSep]
      exact splitCh_no_sep (hps p (List.mem_cons_self p []))
    | cons q qs =>
      have h1 : joinSep [c] (p :: q :: qs) = p ++ c :: joinSep [c] (q :: qs) := by
        simp [joinSep]
      rw [h1, splitCh_append_sep (hps p (List.mem_cons_self p _))]
      rw [ih (fun r hr => hps r (List.mem_cons_of_mem p hr)) (by simp)]

theorem replaceCRLF_no_cr {xs : Str} (h : '\r' ∉ xs) : replaceCRLF xs = xs := by
  induction xs with
  | nil => simp [replaceCRLF]
  | cons x xs ih =>
    have hx : x ≠ '\r' := fun he => h (he ▸ List.mem_cons_self x xs)
    have hxs : '\r' ∉ xs := fun hm => h (List.mem_cons_of_mem x hm)
    cases xs with
    | nil => simp [replaceCRLF]
    | cons y ys =>
      simp only [replaceCRLF]
      rw [if_neg (by exact fun hc => hx hc.1)]
      have := ih hxs
      simp only [this]

theorem normalize_of_no_cr {xs : Str} (h : '\r' ∉ xs) :
    normalizeNewlines xs = xs := by
  rw [normalizeNewlines, replaceCRLF_no_cr h]
  induction xs with
  | nil => rfl
  | cons x xs ih =>
    have hx : x ≠ '\r' := fun he => h (he ▸ List.mem_cons_self x xs)
    simp only [List.map_cons, if_neg hx, List.cons.injEq, true_and]
    exact ih (fun hm => h (List.mem_cons_of_mem x hm))

theorem consHead_eq_modifyHead (x : Char) {ls : List Str} (h : ls ≠ []) :
    consHead x ls = ls.modifyHead (List.cons x) := by
  cases ls with
  | nil => exact absurd rfl h
  | cons p ps => rfl

theorem splitCh_eq_splitOnP (c : Char) (xs : Str) :
    splitCh c xs = xs.splitOnP (· == c) := by
  induction xs with
  | nil => simp [splitCh, List.splitOnP_nil]
  | cons x xs ih =>
    rw [List.splitOnP_cons]
    simp only [splitCh]
    by_cases hx : x = c
    · simp [hx, ih]
    · rw [if_neg hx, if_neg (by simpa using hx), ih,
        consHead_eq_modifyHead x (List.splitOnP_ne_nil _ xs)]

theorem splitCh_eq_splitOn (c : Char) (xs : Str) :
    splitCh c xs = xs.splitOn c := by
  rw [List.splitOn, splitCh_eq_splitOnP]

theorem mem_joinSep {c : Char} {ps : List Str} {y : Char}
    (hy : y ∈ joinSep [c] ps) : y = c ∨ ∃ p ∈ ps, y ∈ p := by
  induction ps with
  | nil => simp [joinSep] at hy
  | cons p ps ih =>
    cases ps with
    | nil =>
      simp [joinSep] at hy
      exact Or.inr ⟨p, List.mem_cons_self p [], hy⟩
    | cons q qs =>
      have h1 : joinSep [c] (p :: q :: qs) = p ++ c :: joinSep [c] (q :: qs) := by
        simp [joinSep]
      rw [h1] at hy
      rcases List.mem_append.mp hy with h2 | h2
      · exact Or.inr ⟨p, List.mem_cons_self p _, h2⟩
      · rcases List.mem_cons.mp h2 with h3 | h3
        · exact Or.inl h3
        · rcases ih h3 with h4 | ⟨r, hr, hyr⟩
          · exact Or.inl h4
          · exact Or.inr ⟨r, List.mem_cons_of_mem p hr, hyr⟩

theorem mem_replaceCRLF {xs : Str} {y : Char}
    (hy : y ∈ replaceCRLF xs) : y ∈ xs ∨ y = '\n' := by
  induction xs using replaceCRLF.induct with
  | case1 => simp [replaceCRLF] at hy
  | case2 c =>
    simp [replaceCRLF] at hy
    exact Or.inl (by simp [hy])
  | case3 c₁ c₂ rest hcond ih =>
    rw [replaceCRLF, if_pos hcond] at hy
    rcases List.mem_cons.mp hy with h1 | h1
    · exact Or.inr h1
    · rcases ih h1 with h2 | h2
      · exact Or.inl (List.mem_cons_of_mem c₁ (List.mem_cons_of_mem c₂ h2))
      · exact Or.inr h2
  | case4 c₁ c₂ rest hcond ih =>
    rw [replaceCRLF, if_neg hcond] at hy
    rcases List.mem_cons.mp hy with h1 | h1
    · exact Or.inl (h1 ▸ List.mem_cons_self c₁ _)
    · rcases ih h1 with h2 | h2
      · exact Or.inl (List.mem_cons_of_mem c₁ h2)
      · exact Or.inr h2

theorem mem_normalize {t : Str} {y : Char} (hy : y ∈ normalizeNewlines t) :
    (y ∈ t ∧ y ≠ '\r') ∨ y = '\n' := by
  rw [normalizeNewlines] at hy
  rcases List.mem_map.mp hy with ⟨src, hsrc, heq⟩
  by_cases hs : src = '\r'
  · rw [if_pos hs] at heq
    exact Or.inr heq.symm
  · rw [if_neg hs] at heq
    subst heq
    rcases mem_replaceCRLF hsrc with h1 | h1
    · exact Or.inl ⟨h1, hs⟩
    · exact Or.inr h1

theorem no_cr_normalize (t : Str) : '\r' ∉ normalizeNewlines t := by
  intro hmem
  rcases mem_normalize hmem with ⟨_, h⟩ | h
  · exact h rfl
  · exact absurd h (by decide)

theorem splitCh_all_sep {c : Char} {xs : Str} (h : ∀ x ∈ xs, x = c) :
    ∀ p ∈ splitCh c xs, p = [] := by
  intro p hp
  cases hq : p with
  | nil => rfl
  | cons y ys =>
    have hy : y ∈ p := hq ▸ List.mem_cons_self y ys
    have := h y (mem_of_mem_splitCh hy hp)
    exact absurd (this ▸ hy) (mem_splitCh_not_sep hp)

/-- C3: the decode of the clipboard codec diverges from the specification
sentence at the concrete input "a\n\nb": the implementation drops the interior
fully-empty line (yielding two rows where the sentence demands three), and on
the empty input it yields the one-row matrix `[[]]`, not a zero-row matrix. -/
theorem c3_counterexample :
    parseClipboard "a\n\nb".toList ≠ parseClipboardSpec "a\n\nb".toList ∧
    parseClipboard "".toList ≠ ([] : List (List Str)) := by
  refine ⟨?_, ?_⟩ <;> decide

/-- C3 (amended): for every input string, `parseClipboard` normalizes CRLF/CR
to LF, splits on LF, drops every fully-empty line (interior ones included),
and splits each kept line on TAB; every input — the empty input included —
yields at least one row, the all-empty case yielding the single zero-cell row
`[[]]`.  The characterization is stated through the standard library splitter
`List.splitOn`. -/
theorem c3_amended (t : Str) :
    parseClipboard t =
      (let ls := ((normalizeNewlines t).splitOn '\n').filter (fun r => !r.isEmpty)
       if ls.isEmpty then [[]] else ls.map (fun l => l.splitOn '\t')) ∧
    1 ≤ (parseClipboard t).length := by
  constructor
  · simp only [parseClipboard, ← splitCh_eq_splitOn]
    cases h : List.filter (fun r => !r.isEmpty) (splitCh '\n' (normalizeNewlines t)) with
    | nil => simp [h]
    | cons l ls => simp [h]
  · rw [parseClipboard]
    split
    · simp
    · rename_i hne
      have : ((splitCh '\n' (normalizeNewlines t)).filter
          (fun r => !r.isEmpty)).map (splitCh '\t') ≠ [] := by
        simpa [List.isEmpty_iff] using hne
      exact Nat.one_le_iff_ne_zero.mpr (by simpa [List.length_eq_zero] using this)

theorem parseClipboard_length_pos (t : Str) : 1 ≤ (parseClipboard t).length := by
  rw [parseClipboard]
  split
  · simp
  · rename_i hne
    have h2 : ((splitCh '\n' (normalizeNewlines t)).filter
        (fun r => !r.isEmpty)).map (splitCh '\t') ≠ [] := by
      simpa [List.isEmpty_iff] using hne
    exact Nat.one_le_iff_ne_zero.mpr (by simpa [List.length_eq_zero] using h2)

/-- C5: decoding, re-encoding without headers, and decoding again is the
identity on the decoded matrix: for every clipboard text `t`,
`parseClipboard (buildClipboardText (parseClipboard t) false labels c) =
parseClipboard t`. -/
theorem c5_decode_encode_decode (t : Str) (labels : List Str) (startCol : Nat) :
    parseClipboard (buildClipboardText (parseClipboard t) false labels startCol) =
      parseClipboard t := by
  cases h : List.filter (fun r => !r.isEmpty) (splitCh '\n' (normalizeNewlines t)) with
  | nil =>
    have hpt : parseClipboard t = [[]] := by simp [parseClipboard, h]
    rw [hpt]
    rfl
  | cons l ls =>
    have hpt : parseClipboard t = (l :: ls).map (splitCh '\t') := by
      simp [parseClipboard, h]
    have hmem : ∀ p ∈ l :: ls,
        p ∈ splitCh '\n' (normalizeNewlines t) ∧ (!p.isEmpty) = true := by
      intro p hp
      exact List.mem_filter.mp (h ▸ hp)
    have hjoin : ((l :: ls).map (splitCh '\t')).map (fun row => joinSep ['\t'] row)
        = l :: ls := by
      rw [List.map_map]
      have : ∀ p ∈ l :: ls, (joinSep ['\t'] ∘ splitCh '\t') p = id p := by
        intro p _
        exact joinSep_splitCh '\t' p
      rw [List.map_congr_left this, List.map_id]
    have henc : buildClipboardText ((l :: ls).map (splitCh '\t')) false labels startCol
        = joinSep ['\n'] (l :: ls) := by
      rw [buildClipboardText.eq_def]
      simp only [Bool.false_eq_true, if_false, List.nil_append, hjoin]
    rw [hpt, henc]
    have hnocr : '\r' ∉ joinSep ['\n'] (l :: ls) := by
      intro hcr
      rcases mem_joinSep hcr with h1 | ⟨p, hp, hyp⟩
      · exact absurd h1 (by decide)
      · exact no_cr_normalize t (mem_of_mem_splitCh hyp (hmem p hp).1)
    have hnotab : ∀ p ∈ l :: ls, '\n' ∉ p := by
      intro p hp
      exact mem_splitCh_not_sep (hmem p hp).1
    have hfilter : (l :: ls).filter (fun r => !r.isEmpty) = l :: ls := by
      rw [List.filter_eq_self]
      intro p hp
      exact (hmem p hp).2
    rw [parseClipboard]
    simp only [normalize_of_no_cr hnocr, splitCh_joinSep hnotab (by simp), hfilter]
    simp

/-- C8: the claim's description of degenerate inputs is wrong at the concrete
whitespace-only input " ": the decoder returns the one-row one-cell matrix
`[[" "]]`, not `[[]]`. -/
theorem c8_counterexample :
    parseClipboard " ".toList ≠ [[]] ∧ parseClipboard " ".toList = [[[' ']]] := by
  refine ⟨?_, ?_⟩ <;> decide

/-- C8 (amended): for every input string `parseClipboard` returns at least one
row — so a `matrix.length === 0` guard on its output is unreachable — and an
input consisting only of newline characters (LF or CR), the empty input
included, yields the single zero-cell row `[[]]`. -/
theorem c8_amended (t : Str) :
    1 ≤ (parseClipboard t).length ∧
      ((∀ c ∈ t, c = '\n' ∨ c = '\r') → parseClipboard t = [[]]) := by
  refine ⟨parseClipboard_length_pos t, ?_⟩
  intro hsub
  have hall : ∀ y ∈ normalizeNewlines t, y = '\n' := by
    intro y hy
    rcases mem_normalize hy with ⟨hyt, hne⟩ | h1
    · rcases hsub y hyt with h2 | h2
      · exact h2
      · exact absurd h2 hne
    · exact h1
  have hempty : ∀ p ∈ splitCh '\n' (normalizeNewlines t), p = [] :=
    splitCh_all_sep hall
  have hnilf : (splitCh '\n' (normalizeNewlines t)).filter (fun r => !r.isEmpty) = [] := by
    rw [List.filter_eq_nil_iff]
    intro p hp
    simp [hempty p hp]
  simp [parseClipboard, hnilf]

theorem c8_amended_witness :
    (∀ c ∈ (['\n', '\r'] : Str), c = '\n' ∨ c = '\r') ∧
      parseClipboard ['\n', '\r'] = [[]] :=
  ⟨by decide, (c8_amended ['\n', '\r']).2 (by decide)⟩

theorem lookup_setField_self (f : Flds) (k : String) (v : Option String) :
    (setField f k v).lookup k = v := by
  cases v with
  | none => simp [setField, Finmap.lookup_erase]
  | some w => simp [setField, Finmap.lookup_insert]

theorem lookup_setField_ne (f : Flds) {k k' : String} (v : Option String)
    (h : k' ≠ k) : (setField f k v).lookup k' = f.lookup k' := by
  cases v with
  | none => simp [setField, Finmap.lookup_erase_ne h]
  | some w => simp [setField, Finmap.lookup_insert_of_ne _ h]

theorem setField_setField_self (f : Flds) (k : String) (v w : Option String) :
    setField (setField f k v) k w = setField f k w := by
  apply Finmap.ext_lookup
  intro x
  by_cases hx : x = k
  · subst hx
    rw [lookup_setField_self, lookup_setField_self]
  · rw [lookup_setField_ne _ _ hx, lookup_setField_ne _ _ hx, lookup_setField_ne _ _ hx]

theorem setField_lookup_self (f : Flds) (k : String) :
    setField f k (f.lookup k) = f := by
  apply Finmap.ext_lookup
  intro x
  by_cases hx : x = k
  · subst hx
    rw [lookup_setField_self]
  · rw [lookup_setField_ne _ _ hx]

theorem setField_comm (f : Flds) {k k' : String} (v v' : Option String)
    (h : k ≠ k') : setField (setField f k v) k' v' = setField (setField f k' v') k v := by
  apply Finmap.ext_lookup
  intro x
  by_cases hx : x = k
  · subst hx
    rw [lookup_setField_ne _ _ h, lookup_setField_self, lookup_setField_self]
  · by_cases hx' : x = k'
    · subst hx'
      rw [lookup_setField_self, lookup_setField_ne _ _ h.symm, lookup_setField_self]
    · rw [lookup_setField_ne _ _ hx', lookup_setField_ne _ _ hx,
        lookup_setField_ne _ _ hx, lookup_setField_ne _ _ hx']

theorem applyPayload_cons (k : String) (v : Option String) (p : Payload) (f : Flds) :
    applyPayload ((k, v) :: p) f = applyPayload p (setField f k v) := rfl

theorem lookup_applyPayload_not_mem {p : Payload} {k : String} (f : Flds)
    (h : k ∉ p.map (·.1)) : (applyPayload p f).lookup k = f.lookup k := by
  induction p generalizing f with
  | nil => rfl
  | cons kv p ih =>
    rw [show ((kv :: p : Payload)) = (kv.1, kv.2) :: p from rfl, applyPayload_cons]
    have hk : k ≠ kv.1 := by
      intro he
      exact h (by simp [he])
    rw [ih _ (fun hm => h (List.mem_cons_of_mem _ hm)), lookup_setField_ne _ _ hk]

theorem applyPayload_setField_comm {p : Payload} {k : String} (f : Flds)
    (v : Option String) (h : k ∉ p.map (·.1)) :
    applyPayload p (setField f k v) = setField (applyPayload p f) k v := by
  induction p generalizing f with
  | nil => rfl
  | cons kv p ih =>
    have hk : kv.1 ≠ k := by
      intro he
      exact h (by simp [he])
    rw [show ((kv :: p : Payload)) = (kv.1, kv.2) :: p from rfl, applyPayload_cons,
      applyPayload_cons, setField_comm _ _ _ hk.symm,
      ih _ (fun hm => h (List.mem_cons_of_mem _ hm))]

theorem applyPayload_prevs {p : Payload} (f : Flds)
    (hnd : (p.map (·.1)).Nodup) :
    applyPayload (p.map (fun kv => (kv.1, f.lookup kv.1))) (applyPayload p f) = f := by
  induction p generalizing f with
  | nil => rfl
  | cons kv p ih =>
    have hk : kv.1 ∉ p.map (·.1) := by
      simp only [List.map_cons, List.nodup_cons] at hnd
      exact hnd.1
    have hnd' : (p.map (·.1)).Nodup := by
      simp only [List.map_cons, List.nodup_cons] at hnd
      exact hnd.2
    rw [List.map_cons, show ((kv :: p : Payload)) = (kv.1, kv.2) :: p from rfl,
      applyPayload_cons, applyPayload_cons, applyPayload_setField_comm _ _ hk,
      setField_setField_self]
    have hlook : (applyPayload p f).lookup kv.1 = f.lookup kv.1 :=
      lookup_applyPayload_not_mem f hk
    rw [← hlook, setField_lookup_self]
    exact ih f hnd'

theorem runUpdates_eq_map (ups : List (Nat × Payload)) (ls : List Lead) :
    runUpdates ups ls = ls.map (leadUpd ups) := by
  induction ups generalizing ls with
  | nil => exact (List.map_id ls).symm
  | cons u ups ih =>
    have h1 : runUpdates (u :: ups) ls = runUpdates ups (dbUpdate ls u.1 u.2) := rfl
    rw [h1, ih, dbUpdate, List.map_map]
    rfl

theorem leadUpd_id (ups : List (Nat × Payload)) (l : Lead) :
    (leadUpd ups l).id = l.id := by
  induction ups generalizing l with
  | nil => rfl
  | cons u ups ih =>
    have h1 : leadUpd (u :: ups) l =
        leadUpd ups (if l.id = u.1 then { l with fields := applyPayload u.2 l.fields } else l) := rfl
    rw [h1, ih]
    split <;> rfl

theorem leadUpd_not_mem {ups : List (Nat × Payload)} {l : Lead}
    (h : l.id ∉ ups.map (·.1)) : leadUpd ups l = l := by
  induction ups with
  | nil => rfl
  | cons u ups ih =>
    have hu : l.id ≠ u.1 := by
      intro he
      exact h (by simp [he])
    have h1 : leadUpd (u :: ups) l = leadUpd ups l := by
      rw [leadUpd, List.foldl_cons, if_neg hu]
      rfl
    rw [h1]
    exact ih (fun hm => h (List.mem_cons_of_mem _ hm))

theorem dbUpdate_runUpdates_comm {ups : List (Nat × Payload)} {id : Nat}
    (q : Payload) (ls : List Lead) (h : id ∉ ups.map (·.1)) :
    dbUpdate (runUpdates ups ls) id q = runUpdates ups (dbUpdate ls id q) := by
  rw [runUpdates_eq_map, runUpdates_eq_map, dbUpdate, dbUpdate, List.map_map, List.map_map]
  apply List.map_congr_left
  intro l _
  simp only [Function.comp]
  by_cases hid : l.id = id
  · have h1 : leadUpd ups l = l := leadUpd_not_mem (hid ▸ h)
    have h2 : leadUpd ups { l with fields := applyPayload q l.fields } =
        { l with fields := applyPayload q l.fields } := leadUpd_not_mem (by simpa [hid] using h)
    rw [h1, if_pos hid, h2]
  · rw [leadUpd_id, if_neg hid, if_neg hid]

theorem payload_map_eta (p : Payload) : p.map (fun kv => (kv.1, kv.2)) = p := by
  simp

theorem filterMap_planSelUpdate_true (plans : List RowPlan) :
    plans.filterMap (planSelUpdate true) = plans.filterMap planUpdate := by
  induction plans with
  | nil => rfl
  | cons pl plans ih =>
    cases pl with
    | upd t p => simp [List.filterMap_cons, planSelUpdate, planUpdate, ih, payload_map_eta]
    | ins p => simp [List.filterMap_cons, planSelUpdate, planUpdate, ih]
    | skip => simp [List.filterMap_cons, planSelUpdate, planUpdate, ih]

theorem map_fst_filterMap_planSelUpdate (b : Bool) (plans : List RowPlan) :
    (plans.filterMap (planSelUpdate b)).map (·.1) =
      (plans.filterMap planUpdate).map (·.1) := by
  induction plans with
  | nil => rfl
  | cons pl plans ih =>
    cases pl with
    | upd t p => simp [List.filterMap_cons, planSelUpdate, planUpdate, ih]
    | ins p => simp [List.filterMap_cons, planSelUpdate, planUpdate, ih]
    | skip => simp [List.filterMap_cons, planSelUpdate, planUpdate, ih]

theorem dbUpdate_prevs {t : Lead} {p : Payload} (ls : List Lead)
    (hkeys : (p.map (·.1)).Nodup)
    (hcoh : ∀ l ∈ ls, l.id = t.id → l = t) :
    dbUpdate (dbUpdate ls t.id p) t.id
      (p.map (fun kv => (kv.1, t.fields.lookup kv.1))) = ls := by
  rw [dbUpdate, dbUpdate, List.map_map]
  have h1 : ∀ l ∈ ls, ((fun l : Lead =>
      if l.id = t.id then
        { l with fields := applyPayload (p.map (fun kv => (kv.1, t.fields.lookup kv.1))) l.fields }
      else l) ∘
      (fun l : Lead => if l.id = t.id then { l with fields := applyPayload p l.fields } else l)) l
      = id l := by
    intro l hl
    simp only [Function.comp, id]
    by_cases hid : l.id = t.id
    · have hlt : l = t := hcoh l hl hid
      subst hlt
      simp [applyPayload_prevs _ hkeys]
    · simp [if_neg hid]
  rw [List.map_congr_left h1, List.map_id]

theorem runUpdates_undo (plans : List RowPlan) (ls : List Lead)
    (hnd : ((plans.filterMap planUpdate).map (·.1)).Nodup)
    (hkeys : ∀ pl ∈ plans, ∀ t p, pl = RowPlan.upd t p → (p.map (·.1)).Nodup)
    (hcoh : ∀ pl ∈ plans, ∀ t p, pl = RowPlan.upd t p → ∀ l ∈ ls, l.id = t.id → l = t) :
    runUpdates (plans.filterMap (planSelUpdate false))
      (runUpdates (plans.filterMap (planSelUpdate true)) ls) = ls := by
  induction plans generalizing ls with
  | nil => rfl
  | cons pl plans ih =>
    cases pl with
    | skip =>
      have e1 : (RowPlan.skip :: plans).filterMap (planSelUpdate false) =
          plans.filterMap (planSelUpdate false) := by simp [List.filterMap_cons, planSelUpdate]
      have e2 : (RowPlan.skip :: plans).filterMap (planSelUpdate true) =
          plans.filterMap (planSelUpdate true) := by simp [List.filterMap_cons, planSelUpdate]
      rw [e1, e2]
      exact ih ls (by simpa [List.filterMap_cons, planUpdate] using hnd)
        (fun q hq => hkeys q (List.mem_cons_of_mem _ hq))
        (fun q hq => hcoh q (List.mem_cons_of_mem _ hq))
    | ins p =>
      have e1 : (RowPlan.ins p :: plans).filterMap (planSelUpdate false) =
          plans.filterMap (planSelUpdate false) := by simp [List.filterMap_cons, planSelUpdate]
      have e2 : (RowPlan.ins p :: plans).filterMap (planSelUpdate true) =
          plans.filterMap (planSelUpdate true) := by simp [List.filterMap_cons, planSelUpdate]
      rw [e1, e2]
      exact ih ls (by simpa [List.filterMap_cons, planUpdate] using hnd)
        (fun q hq => hkeys q (List.mem_cons_of_mem _ hq))
        (fun q hq => hcoh q (List.mem_cons_of_mem _ hq))
    | upd t p =>
      have e1 : (RowPlan.upd t p :: plans).filterMap (planSelUpdate false) =
          (t.id, p.map (fun kv => (kv.1, t.fields.lookup kv.1))) ::
            plans.filterMap (planSelUpdate false) := by
        simp [List.filterMap_cons, planSelUpdate]
      have e2 : (RowPlan.upd t p :: plans).filterMap (planSelUpdate true) =
          (t.id, p) :: plans.filterMap (planSelUpdate true) := by
        simp [List.filterMap_cons, planSelUpdate, payload_map_eta]
      rw [e1, e2]
      have hndc : t.id ∉ (plans.filterMap planUpdate).map (·.1) ∧
          ((plans.filterMap planUpdate).map (·.1)).Nodup := by
        have : ((RowPlan.upd t p :: plans).filterMap planUpdate).map (·.1) =
            t.id :: (plans.filterMap planUpdate).map (·.1) := by
          simp [List.filterMap_cons, planUpdate]
        rw [this] at hnd
        exact List.nodup_cons.mp hnd
      have hT : t.id ∉ (plans.filterMap (planSelUpdate true)).map (·.1) := by
        rw [map_fst_filterMap_planSelUpdate]
        exact hndc.1
      have hstep : runUpdates ((t.id, p) :: plans.filterMap (planSelUpdate true)) ls =
          runUpdates (plans.filterMap (planSelUpdate true)) (dbUpdate ls t.id p) := rfl
      have hstep2 : ∀ X, runUpdates
          ((t.id, p.map (fun kv => (kv.1, t.fields.lookup kv.1))) ::
            plans.filterMap (planSelUpdate false)) X =
          runUpdates (plans.filterMap (planSelUpdate false))
            (dbUpdate X t.id (p.map (fun kv => (kv.1, t.fields.lookup kv.1)))) :=
        fun X => rfl
      rw [hstep, hstep2, dbUpdate_runUpdates_comm _ _ hT]
      rw [dbUpdate_prevs ls
        (hkeys _ (List.mem_cons_self _ _) t p rfl)
        (hcoh _ (List.mem_cons_self _ _) t p rfl)]
      exact ih ls hndc.2
        (fun q hq => hkeys q (List.mem_cons_of_mem _ hq))
        (fun q hq => hcoh q (List.mem_cons_of_mem _ hq))

theorem objSet_not_mem {o : Payload} {k : String} (h : k ∉ o.map (·.1))
    (v : Option String) : objSet o k v = o ++ [(k, v)] := by
  rw [objSet, if_neg]
  simp only [List.any_eq_true, not_exists, not_and]
  intro kv hkv
  simp only [beq_iff_eq]
  intro he
  exact h (he ▸ List.mem_map_of_mem (·.1) hkv)

theorem addChange_miss {acc : List (Nat × Payload)} {i : Nat} (k : String)
    (v : Option String) (hacc : i ∉ acc.map (·.1)) :
    addChange acc i k v = acc ++ [(i, objSet [] k v)] := by
  rw [addChange, if_neg]
  simp only [List.any_eq_true, not_exists, not_and]
  intro g hg
  simp only [beq_iff_eq]
  intro he
  exact hacc (he ▸ List.mem_map_of_mem (·.1) hg)

theorem addChange_append_hit {acc : List (Nat × Payload)} {i : Nat} (q : Payload)
    (k : String) (v : Option String) (hacc : i ∉ acc.map (·.1)) :
    addChange (acc ++ [(i, q)]) i k v = acc ++ [(i, objSet q k v)] := by
  rw [addChange, if_pos]
  · rw [List.map_append]
    congr 1
    · apply (List.map_congr_left ?_).trans (List.map_id acc)
      intro g hg
      have hne : g.1 ≠ i := fun he => hacc (he ▸ List.mem_map_of_mem (·.1) hg)
      rw [if_neg (by simpa using hne)]
      rfl
    · simp
  · exact List.any_eq_true.mpr ⟨(i, q), List.mem_append_right _ (List.mem_cons_self _ _), by simp⟩

theorem group_block (b : Bool) (t : Lead) (p q : Payload) (acc : List (Nat × Payload))
    (hacc : t.id ∉ acc.map (·.1))
    (hq : ∀ kv ∈ p, kv.1 ∉ q.map (·.1))
    (hnd : (p.map (·.1)).Nodup) :
    List.foldl (fun acc ch => addChange acc ch.id ch.fieldKey (if b then ch.next else ch.prev))
      (acc ++ [(t.id, q)])
      (p.map (fun kv => (⟨t.id, kv.1, t.fields.lookup kv.1, kv.2⟩ : FieldChange))) =
    acc ++ [(t.id, q ++ p.map (fun kv => (kv.1, if b then kv.2 else t.fields.lookup kv.1)))] := by
  induction p generalizing q with
  | nil => simp
  | cons kv p ih =>
    rw [List.map_cons, List.foldl_cons]
    have hstep : addChange (acc ++ [(t.id, q)]) t.id kv.1
        (if b then kv.2 else t.fields.lookup kv.1) =
        acc ++ [(t.id, q ++ [(kv.1, if b then kv.2 else t.fields.lookup kv.1)])] := by
      rw [addChange_append_hit q _ _ hacc,
        objSet_not_mem (hq kv (List.mem_cons_self _ _)) _]
    rw [hstep]
    have hq' : ∀ kv' ∈ p, kv'.1 ∉ (q ++ [(kv.1, if b then kv.2 else t.fields.lookup kv.1)]).map (·.1) := by
      intro kv' hkv'
      rw [List.map_append]
      intro hmem
      rcases List.mem_append.mp hmem with h1 | h1
      · exact hq kv' (List.mem_cons_of_mem _ hkv') h1
      · simp only [List.map_cons, List.map_nil, List.mem_singleton] at h1
        have : kv.1 ∉ p.map (·.1) := by
          simp only [List.map_cons, List.nodup_cons] at hnd
          exact hnd.1
        exact this (h1 ▸ List.mem_map_of_mem (·.1) hkv')
    have hnd' : (p.map (·.1)).Nodup := by
      simp only [List.map_cons, List.nodup_cons] at hnd
      exact hnd.2
    rw [ih _ hq' hnd']
    simp [List.append_assoc]

theorem upd_mem_update_ids {plans : List RowPlan} {pl : RowPlan} {t : Lead} {p : Payload}
    (hpl : pl ∈ plans) (he : pl = RowPlan.upd t p) :
    t.id ∈ (plans.filterMap planUpdate).map (·.1) := by
  subst he
  have h1 : (t.id, p) ∈ plans.filterMap planUpdate :=
    List.mem_filterMap.mpr ⟨RowPlan.upd t p, hpl, rfl⟩
  exact List.mem_map_of_mem (·.1) h1

theorem group_go (b : Bool) (plans : List RowPlan) (acc : List (Nat × Payload))
    (hacc : ∀ pl ∈ plans, ∀ t p, pl = RowPlan.upd t p → t.id ∉ acc.map (·.1))
    (hnd : ((plans.filterMap planUpdate).map (·.1)).Nodup)
    (hwf : ∀ pl ∈ plans, ∀ t p, pl = RowPlan.upd t p → ¬p.isEmpty ∧ (p.map (·.1)).Nodup) :
    List.foldl (fun acc ch => addChange acc ch.id ch.fieldKey (if b then ch.next else ch.prev))
      acc (plans.map planChanges).flatten =
    acc ++ plans.filterMap (planSelUpdate b) := by
  induction plans generalizing acc with
  | nil => simp
  | cons pl plans ih =>
    cases pl with
    | skip =>
      rw [List.map_cons, List.flatten_cons]
      have e0 : planChanges RowPlan.skip = [] := rfl
      rw [e0, List.nil_append]
      have e1 : (RowPlan.skip :: plans).filterMap (planSelUpdate b) =
          plans.filterMap (planSelUpdate b) := by simp [List.filterMap_cons, planSelUpdate]
      rw [e1]
      exact ih acc (fun q hq => hacc q (List.mem_cons_of_mem _ hq))
        (by simpa [List.filterMap_cons, planUpdate] using hnd)
        (fun q hq => hwf q (List.mem_cons_of_mem _ hq))
    | ins pp =>
      rw [List.map_cons, List.flatten_cons]
      have e0 : planChanges (RowPlan.ins pp) = [] := rfl
      rw [e0, List.nil_append]
      have e1 : (RowPlan.ins pp :: plans).filterMap (planSelUpdate b) =
          plans.filterMap (planSelUpdate b) := by simp [List.filterMap_cons, planSelUpdate]
      rw [e1]
      exact ih acc (fun q hq => hacc q (List.mem_cons_of_mem _ hq))
        (by simpa [List.filterMap_cons, planUpdate] using hnd)
        (fun q hq => hwf q (List.mem_cons_of_mem _ hq))
    | upd t p =>
      have hndc : t.id ∉ (plans.filterMap planUpdate).map (·.1) ∧
          ((plans.filterMap planUpdate).map (·.1)).Nodup := by
        have he : ((RowPlan.upd t p :: plans).filterMap planUpdate).map (·.1) =
            t.id :: (plans.filterMap planUpdate).map (·.1) := by
          simp [List.filterMap_cons, planUpdate]
        rw [he] at hnd
        exact List.nodup_cons.mp hnd
      obtain ⟨hpne, hpnd⟩ := hwf _ (List.mem_cons_self _ _) t p rfl
      match hp : p with
      | [] => exact (hpne (by rfl)).elim
      | kv :: p' =>
        rw [List.map_cons, List.flatten_cons]
        have e0 : planChanges (RowPlan.upd t (kv :: p')) =
            (⟨t.id, kv.1, t.fields.lookup kv.1, kv.2⟩ : FieldChange) ::
              p'.map (fun kv => (⟨t.id, kv.1, t.fields.lookup kv.1, kv.2⟩ : FieldChange)) := rfl
        rw [e0]
        rw [List.cons_append, List.foldl_cons]
        have hT : t.id ∉ acc.map (·.1) := hacc _ (List.mem_cons_self _ _) t (kv :: p') rfl
        have hstep : addChange acc t.id kv.1 (if b then kv.2 else t.fields.lookup kv.1) =
            acc ++ [(t.id, [(kv.1, if b then kv.2 else t.fields.lookup kv.1)])] := by
          rw [addChange_miss _ _ hT]
          rfl
        rw [hstep, List.foldl_append]
        have hq' : ∀ kv' ∈ p',
            kv'.1 ∉ ([(kv.1, if b then kv.2 else t.fields.lookup kv.1)] : Payload).map (·.1) := by
          intro kv' hkv'
          simp only [List.map_cons, List.map_nil, List.mem_singleton]
          intro he
          have : kv.1 ∉ p'.map (·.1) := by
            simp only [List.map_cons, List.nodup_cons] at hpnd
            exact hpnd.1
          exact this (he ▸ List.mem_map_of_mem (·.1) hkv')
        have hnd' : (p'.map (·.1)).Nodup := by
          simp only [List.map_cons, List.nodup_cons] at hpnd
          exact hpnd.2
        rw [group_block b t p' _ acc hT hq' hnd']
        simp only [List.singleton_append]
        have hacc' : ∀ pl ∈ plans, ∀ t' p'', pl = RowPlan.upd t' p'' →
            t'.id ∉ (acc ++ [(t.id,
              (kv.1, if b then kv.2 else t.fields.lookup kv.1) ::
                p'.map (fun kv => (kv.1, if b then kv.2 else t.fields.lookup kv.1)))]).map (·.1) := by
          intro q hq t' p'' he
          rw [List.map_append]
          intro hmem
          rcases List.mem_append.mp hmem with h1 | h1
          · exact hacc q (List.mem_cons_of_mem _ hq) t' p'' he h1
          · simp only [List.map_cons, List.map_nil, List.mem_singleton] at h1
            exact hndc.1 (h1 ▸ upd_mem_update_ids hq he)
        rw [ih _ hacc' hndc.2 (fun q hq => hwf q (List.mem_cons_of_mem _ hq))]
        have e2 : (RowPlan.upd t (kv :: p') :: plans).filterMap (planSelUpdate b) =
            (t.id, (kv :: p').map (fun kv => (kv.1, if b then kv.2 else t.fields.lookup kv.1))) ::
              plans.filterMap (planSelUpdate b) := by
          simp [List.filterMap_cons, planSelUpdate]
        rw [e2]
        simp [List.append_assoc]

theorem groupChangesById_eq (b : Bool) (plans : List RowPlan)
    (hnd : ((plans.filterMap planUpdate).map (·.1)).Nodup)
    (hwf : ∀ pl ∈ plans, ∀ t p, pl = RowPlan.upd t p → ¬p.isEmpty ∧ (p.map (·.1)).Nodup) :
    groupChangesById (plans.map planChanges).flatten b = plans.filterMap (planSelUpdate b) := by
  rw [groupChangesById]
  exact group_go b plans [] (by intro pl _ t p _; simp) hnd hwf

theorem objSet_any_iff (o : Payload) (k : String) :
    (o.any (fun kv => kv.1 == k) = true) ↔ k ∈ o.map (·.1) := by
  simp only [List.any_eq_true, beq_iff_eq, List.mem_map]

theorem objSet_map_fst_mem {o : Payload} {k : String} (v : Option String)
    (h : k ∈ o.map (·.1)) : (objSet o k v).map (·.1) = o.map (·.1) := by
  rw [objSet, if_pos ((objSet_any_iff o k).mpr h), List.map_map]
  apply List.map_congr_left
  intro kv _
  simp only [Function.comp]
  by_cases hk : kv.1 = k
  · rw [if_pos (by simpa using hk)]
    exact hk.symm
  · rw [if_neg (by simpa using hk)]

theorem objSet_keys_nodup {o : Payload} (k : String) (v : Option String)
    (h : (o.map (·.1)).Nodup) : ((objSet o k v).map (·.1)).Nodup := by
  by_cases hk : k ∈ o.map (·.1)
  · rw [objSet_map_fst_mem v hk]
    exact h
  · rw [objSet_not_mem hk v, List.map_append]
    simp only [List.map_cons, List.map_nil]
    rw [List.nodup_append]
    refine ⟨h, List.nodup_singleton k, ?_⟩
    intro x hx hmem
    rw [List.mem_singleton] at hmem
    exact hk (hmem ▸ hx)

theorem rowPayloadGo_keys_nodup (fs : List LeadField) (sc : Nat) :
    ∀ (cells : List String) (c : Nat) (acc : Payload),
    (acc.map (·.1)).Nodup → ((rowPayloadGo fs sc c cells acc).map (·.1)).Nodup := by
  intro cells
  induction cells with
  | nil => intro c acc h; exact h
  | cons cell rest ih =>
    intro c acc h
    rw [rowPayloadGo]
    split
    · exact h
    · split
      · exact h
      · exact ih (c + 1) _ (objSet_keys_nodup _ _ h)

theorem buildRowPayload_keys_nodup (fs : List LeadField) (sc : Nat)
    (cells : List String) : ((buildRowPayload fs sc cells).map (·.1)).Nodup :=
  rowPayloadGo_keys_nodup fs sc cells 0 [] List.nodup_nil

theorem planUpdate_some_inv {pl : RowPlan} {u : Nat × Payload}
    (h : planUpdate pl = some u) : ∃ t p, pl = RowPlan.upd t p ∧ u = (t.id, p) := by
  cases pl with
  | upd t p => exact ⟨t, p, rfl, by cases h; rfl⟩
  | ins p => cases h
  | skip => cases h

theorem planRow_upd_inv {filtered : List Lead} {aa : Bool} {ri : Nat}
    {payload : Payload} {t : Lead} {p : Payload}
    (h : planRow filtered aa ri payload = RowPlan.upd t p) :
    filtered.get? ri = some t ∧ p = payload ∧ ¬payload.isEmpty := by
  rw [planRow] at h
  split at h
  · rename_i target hg
    split at h
    · cases h
    · rename_i hemp
      injection h with h1 h2
      subst h1
      subst h2
      exact ⟨hg, rfl, hemp⟩
  · split at h <;> cases h

theorem withIdx_snd_ge {α : Type} : ∀ (l : List α) (n : Nat) (q : α × Nat),
    q ∈ withIdx l n → n ≤ q.2 := by
  intro l
  induction l with
  | nil => intro n q hq; cases hq
  | cons x xs ih =>
    intro n q hq
    rcases List.mem_cons.mp hq with h1 | h1
    · subst h1; exact Nat.le_refl n
    · exact Nat.le_of_succ_le (ih (n + 1) q h1)

theorem updates_mem_go (filtered : List Lead) (fs : List LeadField)
    (sr sc : Nat) (aa : Bool) :
    ∀ (matrix : List (List String)) (n : Nat) (u : Nat × Payload),
    u ∈ ((withIdx matrix n).map (fun rw =>
        planRow filtered aa (sr + rw.2) (buildRowPayload fs sc rw.1))).filterMap planUpdate →
    ∃ i, n ≤ i ∧ ∃ t : Lead, filtered.get? (sr + i) = some t ∧ t.id = u.1 := by
  intro matrix
  induction matrix with
  | nil => intro n u hu; cases hu
  | cons row rest ih =>
    intro n u hu
    rw [withIdx, List.map_cons, List.filterMap_cons] at hu
    cases hpr : planUpdate (planRow filtered aa (sr + n) (buildRowPayload fs sc row)) with
    | none =>
      rw [hpr] at hu
      rcases ih (n + 1) u hu with ⟨i, hi, t, hg, hid⟩
      exact ⟨i, Nat.le_of_succ_le hi, t, hg, hid⟩
    | some u0 =>
      rw [hpr] at hu
      rcases List.mem_cons.mp hu with h1 | h1
      · subst h1
        rcases planUpdate_some_inv hpr with ⟨t, p, hpl, hu0⟩
        rcases planRow_upd_inv hpl with ⟨hg, _, _⟩
        exact ⟨n, Nat.le_refl n, t, hg, by rw [hu0]⟩
      · rcases ih (n + 1) u h1 with ⟨i, hi, t, hg, hid⟩
        exact ⟨i, Nat.le_of_succ_le hi, t, hg, hid⟩

theorem updates_ids_nodup_go (filtered : List Lead) (fs : List LeadField)
    (sr sc : Nat) (aa : Bool) (hnd : (filtered.map (·.id)).Nodup) :
    ∀ (matrix : List (List String)) (n : Nat),
    ((((withIdx matrix n).map (fun rw =>
        planRow filtered aa (sr + rw.2) (buildRowPayload fs sc rw.1))).filterMap
      planUpdate).map (·.1)).Nodup := by
  intro matrix
  induction matrix with
  | nil => intro n; simp [withIdx]
  | cons row rest ih =>
    intro n
    rw [withIdx, List.map_cons, List.filterMap_cons]
    cases hpr : planUpdate (planRow filtered aa (sr + n) (buildRowPayload fs sc row)) with
    | none => exact ih (n + 1)
    | some u0 =>
      rw [List.map_cons, List.nodup_cons]
      refine ⟨?_, ih (n + 1)⟩
      intro hmem
      rcases List.mem_map.mp hmem with ⟨u', hu', hid'⟩
      rcases updates_mem_go filtered fs sr sc aa rest (n + 1) u' hu' with
        ⟨i, hi, t', hg', hid2⟩
      rcases planUpdate_some_inv hpr with ⟨t, p, hpl, hu0⟩
      rcases planRow_upd_inv hpl with ⟨hg, _, _⟩
      have ht : t.id = t'.id := by
        rw [hid2, hid', hu0]
      have h1 : (filtered.map (·.id)).get? (sr + n) = some t.id := by
        rw [List.get?_map, hg]
        rfl
      have h2 : (filtered.map (·.id)).get? (sr + i) = some t.id := by
        rw [List.get?_map, hg', ht]
        rfl
      have hlt : sr + n < (filtered.map (·.id)).length := by
        rcases List.get?_eq_some.mp h1 with ⟨h, _⟩
        exact h
      have := List.get?_inj hlt hnd (h1.trans h2.symm)
      omega

theorem msFilteredLeads_sublist (q : String) (ls : List Lead) :
    (msFilteredLeads q ls).Sublist ls := by
  rw [msFilteredLeads]
  split
  · exact List.Sublist.refl ls
  · exact List.filter_sublist ls

theorem runUpdates_map_id (ups : List (Nat × Payload)) (ls : List Lead) :
    (runUpdates ups ls).map (·.id) = ls.map (·.id) := by
  rw [runUpdates_eq_map, List.map_map]
  apply List.map_congr_left
  intro l _
  exact leadUpd_id ups l

theorem runUpdates_append_fresh {ups : List (Nat × Payload)} {extra : List Lead}
    (ls : List Lead) (h : ∀ x ∈ extra, x.id ∉ ups.map (·.1)) :
    runUpdates ups (ls ++ extra) = runUpdates ups ls ++ extra := by
  rw [runUpdates_eq_map, runUpdates_eq_map, List.map_append]
  congr 1
  apply (List.map_congr_left ?_).trans (List.map_id extra)
  intro x hx
  exact leadUpd_not_mem (h x hx)

theorem mkInserted_id_ge (nid : Nat) (ps : List Payload) :
    ∀ x ∈ mkInserted nid ps, nid ≤ x.id := by
  intro x hx
  rcases List.mem_map.mp hx with ⟨pi, _, he⟩
  rw [← he]
  exact Nat.le_add_right nid pi.2

theorem mkInserted_ne_nil {nid : Nat} {ps : List Payload} (h : ¬ps.isEmpty) :
    ¬(mkInserted nid ps).isEmpty := by
  cases ps with
  | nil => exact (h (by rfl)).elim
  | cons p ps => simp [mkInserted, withIdx]

theorem delete_inserted (ls inserted : List Lead)
    (h : ∀ l ∈ ls, l.id ∉ inserted.map (·.id)) :
    (ls ++ inserted).filter (fun l => !((inserted.map (·.id)).contains l.id)) = ls := by
  rw [List.filter_append]
  have h1 : ls.filter (fun l => !((inserted.map (·.id)).contains l.id)) = ls := by
    rw [List.filter_eq_self]
    intro l hl
    simpa using h l hl
  have h2 : inserted.filter (fun l => !((inserted.map (·.id)).contains l.id)) = [] := by
    rw [List.filter_eq_nil_iff]
    intro l hl
    simpa using List.mem_map_of_mem (·.id) hl
  rw [h1, h2, List.append_nil]

theorem planMatrix_upd_inv {filtered : List Lead} {fs : List LeadField}
    {sr sc : Nat} {aa : Bool} {matrix : List (List String)} {pl : RowPlan}
    {t : Lead} {p : Payload}
    (hpl : pl ∈ planMatrix filtered fs sr sc aa matrix)
    (he : pl = RowPlan.upd t p) :
    t ∈ filtered ∧ ¬p.isEmpty ∧ (p.map (·.1)).Nodup := by
  rcases List.mem_map.mp hpl with ⟨rw, _, hpl2⟩
  rcases planRow_upd_inv (hpl2.trans he) with ⟨hg, hp, hemp⟩
  refine ⟨List.get?_mem hg, ?_, ?_⟩
  · rw [hp]
    exact hemp
  · rw [hp]
    exact buildRowPayload_keys_nodup fs sc rw.1

theorem planMatrix_upd_wf (filtered : List Lead) (fs : List LeadField)
    (sr sc : Nat) (aa : Bool) (matrix : List (List String)) :
    ∀ pl ∈ planMatrix filtered fs sr sc aa matrix, ∀ t p, pl = RowPlan.upd t p →
      ¬p.isEmpty ∧ (p.map (·.1)).Nodup := by
  intro pl hpl t p he
  exact (planMatrix_upd_inv hpl he).2

theorem planMatrix_updates_nodup {filtered : List Lead} (fs : List LeadField)
    (sr sc : Nat) (aa : Bool) (matrix : List (List String))
    (hnd : (filtered.map (·.id)).Nodup) :
    (((planMatrix filtered fs sr sc aa matrix).filterMap planUpdate).map (·.1)).Nodup :=
  updates_ids_nodup_go filtered fs sr sc aa hnd matrix 0

theorem changes_empty_updates_empty {plans : List RowPlan}
    (hwf : ∀ pl ∈ plans, ∀ t p, pl = RowPlan.upd t p → ¬p.isEmpty ∧ (p.map (·.1)).Nodup)
    (h : ((plans.map planChanges).flatten).isEmpty) :
    plans.filterMap planUpdate = [] := by
  induction plans with
  | nil => rfl
  | cons pl plans ih =>
    rw [List.map_cons, List.flatten_cons] at h
    rcases List.append_eq_nil.mp (List.isEmpty_iff.mp h) with ⟨h1, h2⟩
    have h2e : ((plans.map planChanges).flatten).isEmpty = true := List.isEmpty_iff.mpr h2
    cases pl with
    | upd t p =>
      exfalso
      have hpe := (hwf _ (List.mem_cons_self _ _) t p rfl).1
      apply hpe
      have he0 : planChanges (RowPlan.upd t p) = p.map
          (fun kv => (⟨t.id, kv.1, t.fields.lookup kv.1, kv.2⟩ : FieldChange)) := rfl
      rw [he0] at h1
      rw [List.map_eq_nil] at h1
      rw [h1]
      rfl
    | ins p =>
      rw [List.filterMap_cons]
      exact ih (fun q hq => hwf q (List.mem_cons_of_mem _ hq)) h2e
    | skip =>
      rw [List.filterMap_cons]
      exact ih (fun q hq => hwf q (List.mem_cons_of_mem _ hq)) h2e

theorem filtered_ids_nodup {st : StoreState} (q : String) (hwf : WFState st) :
    ((msFilteredLeads q st.leads).map (·.id)).Nodup :=
  ((msFilteredLeads_sublist q st.leads).map (·.id)).nodup hwf.1

theorem filtered_coh {st : StoreState} (q : String) (hwf : WFState st)
    {t : Lead} (ht : t ∈ msFilteredLeads q st.leads) :
    ∀ l ∈ st.leads, l.id = t.id → l = t := by
  intro l hl hid
  exact List.inj_on_of_nodup_map hwf.1 hl
    ((msFilteredLeads_sublist q st.leads).subset ht) hid

theorem updates_ids_lt {st : StoreState} {q : String} {fs : List LeadField}
    {sr sc : Nat} {aa : Bool} {matrix : List (List String)} (hwf : WFState st) :
    ∀ u ∈ (planMatrix (msFilteredLeads q st.leads) fs sr sc aa matrix).filterMap planUpdate,
      u.1 < st.nextId := by
  intro u hu
  rcases List.mem_filterMap.mp hu with ⟨pl, hpl, hfu⟩
  rcases planUpdate_some_inv hfu with ⟨t, p, he, hu2⟩
  have hmem := (planMatrix_upd_inv hpl he).1
  have := hwf.2 t ((msFilteredLeads_sublist q st.leads).subset hmem)
  rw [hu2]
  exact this

theorem applyMatrix_plans_undo (st : StoreState) (q : String) (fs : List LeadField)
    (sr sc : Nat) (aa : Bool) (matrix : List (List String)) (hwf : WFState st) :
    runUpdates ((planMatrix (msFilteredLeads q st.leads) fs sr sc aa matrix).filterMap
        (planSelUpdate false))
      (runUpdates ((planMatrix (msFilteredLeads q st.leads) fs sr sc aa matrix).filterMap
        (planSelUpdate true)) st.leads) = st.leads := by
  apply runUpdates_undo
  · exact planMatrix_updates_nodup fs sr sc aa matrix (filtered_ids_nodup q hwf)
  · intro pl hpl t p he
    exact (planMatrix_upd_inv hpl he).2.2
  · intro pl hpl t p he
    exact filtered_coh q hwf (planMatrix_upd_inv hpl he).1

theorem planMatrix_group (b : Bool) {st : StoreState} (q : String) (fs : List LeadField)
    (sr sc : Nat) (aa : Bool) (matrix : List (List String)) (hwf : WFState st) :
    groupChangesById
      ((planMatrix (msFilteredLeads q st.leads) fs sr sc aa matrix).map planChanges).flatten b =
    (planMatrix (msFilteredLeads q st.leads) fs sr sc aa matrix).filterMap (planSelUpdate b) :=
  groupChangesById_eq b _ (planMatrix_updates_nodup fs sr sc aa matrix (filtered_ids_nodup q hwf))
    (planMatrix_upd_wf _ fs sr sc aa matrix)

theorem map_isEmpty {α β : Type} (f : α → β) (l : List α) :
    (l.map f).isEmpty = l.isEmpty := by
  cases l <;> rfl

theorem applyUndoAction_eval (a : UndoAction) (b : Bool) (st0 : StoreState) :
    applyUndoAction a b st0 =
      ⟨(fun leads1 =>
          if !a.changes.isEmpty then runUpdates (groupChangesById a.changes b) leads1
          else leads1)
        (if !a.insertedRows.isEmpty then
          (if b then st0.leads ++ a.insertedRows
           else
            (if !((a.insertedRows.map (·.id)).isEmpty) then
              st0.leads.filter (fun l => !((a.insertedRows.map (·.id)).contains l.id))
            else st0.leads))
         else st0.leads), st0.nextId⟩ := rfl

/-- C1: for every well-formed store state, a successful `applyMatrix` that
pushes an undo action is reverted exactly by `applyUndoAction … false` — every
touched field returns to its pre-apply value and every inserted record is
deleted — and `applyUndoAction … true` on the reverted state re-establishes
the exact forward state, re-inserting the inserted records with their original
identities; both equalities are observed through the row store's lead list. -/
theorem c1_applyMatrix_undo_redo (st : StoreState) (startRow startCol : Nat)
    (matrix : List (List String)) (orderedFields : List LeadField)
    (autoAddRows : Bool) (searchQuery : String) (st' : StoreState) (A : UndoAction)
    (hwf : WFState st)
    (h : applyMatrix startRow startCol matrix orderedFields autoAddRows searchQuery st
      = (st', some A)) :
    (applyUndoAction A false st').leads = st.leads ∧
    (applyUndoAction A true (applyUndoAction A false st')).leads = st'.leads := by
  by_cases hm : matrix.isEmpty = true
  · rw [applyMatrix, if_pos hm] at h
    exact absurd (congrArg Prod.snd h) (by simp)
  · rw [applyMatrix, if_neg hm] at h
    have hfst := congrArg Prod.fst h
    have hsnd := congrArg Prod.snd h
    dsimp only at hfst hsnd
    by_cases hins : ((planMatrix (msFilteredLeads searchQuery st.leads) orderedFields
        startRow startCol autoAddRows matrix).filterMap planInsert).isEmpty = true
    · -- no inserts
      have hinsnil : (planMatrix (msFilteredLeads searchQuery st.leads) orderedFields
          startRow startCol autoAddRows matrix).filterMap planInsert = [] :=
        List.isEmpty_iff.mp hins
      rw [hinsnil] at hfst hsnd
      simp only [List.isEmpty_nil, Bool.not_true, Bool.false_eq_true, if_false] at hsnd
      by_cases hch : (((planMatrix (msFilteredLeads searchQuery st.leads) orderedFields
          startRow startCol autoAddRows matrix).map planChanges).flatten).isEmpty = true
      · rw [if_neg (by simp [hch])] at hsnd
        cases hsnd
      · have hch' : (((planMatrix (msFilteredLeads searchQuery st.leads) orderedFields
            startRow startCol autoAddRows matrix).map planChanges).flatten).isEmpty = false := by
          simpa using hch
        rw [if_pos (by simp [hch'])] at hsnd
        have hA := (Option.some.inj hsnd).symm
        have hstl : st'.leads = runUpdates ((planMatrix (msFilteredLeads searchQuery st.leads)
            orderedFields startRow startCol autoAddRows matrix).filterMap planUpdate) st.leads := by
          rw [← hfst]
          simp [mkInserted, withIdx]
        have hundo : (applyUndoAction A false st').leads = st.leads := by
          rw [hA, applyUndoAction_eval]
          simp only [List.isEmpty_nil, Bool.not_true, Bool.false_eq_true, if_false, hch',
            Bool.not_false, if_true]
          rw [planMatrix_group false searchQuery orderedFields startRow startCol autoAddRows
            matrix hwf, hstl, ← filterMap_planSelUpdate_true]
          exact applyMatrix_plans_undo st searchQuery orderedFields startRow startCol
            autoAddRows matrix hwf
        refine ⟨hundo, ?_⟩
        rw [hA, applyUndoAction_eval]
        simp only [List.isEmpty_nil, Bool.not_true, Bool.false_eq_true, if_false, hch',
          Bool.not_false, if_true]
        rw [hA] at hundo
        rw [hundo]
        rw [planMatrix_group true searchQuery orderedFields startRow startCol autoAddRows
          matrix hwf, filterMap_planSelUpdate_true, hstl]
    · -- inserts present
      have hins' : ¬((planMatrix (msFilteredLeads searchQuery st.leads) orderedFields
          startRow startCol autoAddRows matrix).filterMap planInsert).isEmpty = true := hins
      have hinse : (mkInserted st.nextId ((planMatrix (msFilteredLeads searchQuery st.leads)
          orderedFields startRow startCol autoAddRows matrix).filterMap planInsert)).isEmpty
          = false := by
        simpa using mkInserted_ne_nil hins'
      have hinse0 : ((planMatrix (msFilteredLeads searchQuery st.leads) orderedFields
          startRow startCol autoAddRows matrix).filterMap planInsert).isEmpty = false := by
        simpa using hins
      rw [if_pos (by simp [hinse0])] at hsnd
      have hA := (Option.some.inj hsnd).symm
      have hstl : st'.leads = runUpdates ((planMatrix (msFilteredLeads searchQuery st.leads)
          orderedFields startRow startCol autoAddRows matrix).filterMap planUpdate) st.leads ++
          mkInserted st.nextId ((planMatrix (msFilteredLeads searchQuery st.leads)
            orderedFields startRow startCol autoAddRows matrix).filterMap planInsert) := by
        rw [← hfst]
      have hlds1 : ∀ l ∈ runUpdates ((planMatrix (msFilteredLeads searchQuery st.leads)
          orderedFields startRow startCol autoAddRows matrix).filterMap planUpdate) st.leads,
          l.id < st.nextId := by
        intro l hl
        have hmem : l.id ∈ (runUpdates ((planMatrix (msFilteredLeads searchQuery st.leads)
            orderedFields startRow startCol autoAddRows matrix).filterMap planUpdate)
            st.leads).map (·.id) := List.mem_map_of_mem (·.id) hl
        rw [runUpdates_map_id] at hmem
        rcases List.mem_map.mp hmem with ⟨l0, hl0, hid⟩
        rw [← hid]
        exact hwf.2 l0 hl0
      have hdel : (runUpdates ((planMatrix (msFilteredLeads searchQuery st.leads)
          orderedFields startRow startCol autoAddRows matrix).filterMap planUpdate) st.leads ++
          mkInserted st.nextId ((planMatrix (msFilteredLeads searchQuery st.leads)
            orderedFields startRow startCol autoAddRows matrix).filterMap planInsert)).filter
          (fun l => !(((mkInserted st.nextId ((planMatrix (msFilteredLeads searchQuery st.leads)
            orderedFields startRow startCol autoAddRows matrix).filterMap
            planInsert)).map (·.id)).contains l.id)) =
          runUpdates ((planMatrix (msFilteredLeads searchQuery st.leads)
            orderedFields startRow startCol autoAddRows matrix).filterMap planUpdate) st.leads := by
        apply delete_inserted
        intro l hl hmem
        rcases List.mem_map.mp hmem with ⟨x, hx, hxid⟩
        have h1 := mkInserted_id_ge st.nextId _ x hx
        have h2 := hlds1 l hl
        omega
      have hundo : (applyUndoAction A false st').leads = st.leads := by
        rw [hA, applyUndoAction_eval]
        simp only [hinse, Bool.not_false, if_true, Bool.false_eq_true, if_false,
          map_isEmpty]
        rw [hstl, hdel]
        by_cases hch : (((planMatrix (msFilteredLeads searchQuery st.leads) orderedFields
            startRow startCol autoAddRows matrix).map planChanges).flatten).isEmpty = true
        · rw [if_neg (by simp [hch])]
          rw [changes_empty_updates_empty (planMatrix_upd_wf _ _ _ _ _ _) hch]
          rfl
        · have hch' : (((planMatrix (msFilteredLeads searchQuery st.leads) orderedFields
              startRow startCol autoAddRows matrix).map planChanges).flatten).isEmpty
              = false := by simpa using hch
          rw [if_pos (by simp [hch'])]
          rw [planMatrix_group false searchQuery orderedFields startRow startCol autoAddRows
            matrix hwf, ← filterMap_planSelUpdate_true]
          exact applyMatrix_plans_undo st searchQuery orderedFields startRow startCol
            autoAddRows matrix hwf
      refine ⟨hundo, ?_⟩
      rw [hA] at hundo ⊢
      rw [applyUndoAction_eval]
      simp only [hinse, Bool.not_false, if_true, Bool.false_eq_true, if_false,
        map_isEmpty]
      rw [hundo]
      have hfresh : ∀ x ∈ mkInserted st.nextId ((planMatrix (msFilteredLeads searchQuery
          st.leads) orderedFields startRow startCol autoAddRows matrix).filterMap planInsert),
          x.id ∉ ((planMatrix (msFilteredLeads searchQuery st.leads) orderedFields
            startRow startCol autoAddRows matrix).filterMap planUpdate).map (·.1) := by
        intro x hx hmem
        rcases List.mem_map.mp hmem with ⟨u, hu, hid⟩
        have h1 := mkInserted_id_ge st.nextId _ x hx
        have h2 := updates_ids_lt hwf u hu
        omega
      by_cases hch : (((planMatrix (msFilteredLeads searchQuery st.leads) orderedFields
          startRow startCol autoAddRows matrix).map planChanges).flatten).isEmpty = true
      · rw [if_neg (by simp [hch])]
        rw [hstl, changes_empty_updates_empty (planMatrix_upd_wf _ _ _ _ _ _) hch]
        rfl
      · have hch' : (((planMatrix (msFilteredLeads searchQuery st.leads) orderedFields
            startRow startCol autoAddRows matrix).map planChanges).flatten).isEmpty
            = false := by simpa using hch
        rw [if_pos (by simp [hch'])]
        rw [planMatrix_group true searchQuery orderedFields startRow startCol autoAddRows
          matrix hwf, filterMap_planSelUpdate_true,
          runUpdates_append_fresh st.leads hfresh, hstl]

theorem c1_applyMatrix_undo_redo_witness :
    WFState ⟨[⟨0, false, payloadToFields [("name", some "Ann")]⟩], 1⟩ ∧
    applyMatrix 0 0 [["x"], ["y"]] [⟨"name", "Name"⟩] true ""
        ⟨[⟨0, false, payloadToFields [("name", some "Ann")]⟩], 1⟩ =
      (⟨[⟨0, false, payloadToFields [("name", some "x")]⟩,
         ⟨1, false, payloadToFields [("name", some "y"), ("outreach_method", none)]⟩], 2⟩,
       some ⟨[⟨0, "name", some "Ann", some "x"⟩],
         [⟨1, false, payloadToFields [("name", some "y"), ("outreach_method", none)]⟩]⟩) ∧
    (applyUndoAction
        ⟨[⟨0, "name", some "Ann", some "x"⟩],
          [⟨1, false, payloadToFields [("name", some "y"), ("outreach_method", none)]⟩]⟩ false
        ⟨[⟨0, false, payloadToFields [("name", some "x")]⟩,
          ⟨1, false, payloadToFields [("name", some "y"), ("outreach_method", none)]⟩], 2⟩).leads =
      [⟨0, false, payloadToFields [("name", some "Ann")]⟩] ∧
    (applyUndoAction
        ⟨[⟨0, "name", some "Ann", some "x"⟩],
          [⟨1, false, payloadToFields [("name", some "y"), ("outreach_method", none)]⟩]⟩ true
        (applyUndoAction
          ⟨[⟨0, "name", some "Ann", some "x"⟩],
            [⟨1, false, payloadToFields [("name", some "y"), ("outreach_method", none)]⟩]⟩ false
          ⟨[⟨0, false, payloadToFields [("name", some "x")]⟩,
            ⟨1, false, payloadToFields [("name", some "y"), ("outreach_method", none)]⟩], 2⟩)).leads =
      (⟨[⟨0, false, payloadToFields [("name", some "x")]⟩,
         ⟨1, false, payloadToFields [("name", some "y"), ("outreach_method", none)]⟩],
        2⟩ : StoreState).leads :=
  ⟨by unfold WFState; decide, by decide,
    (c1_applyMatrix_undo_redo ⟨[⟨0, false, payloadToFields [("name", some "Ann")]⟩], 1⟩
      0 0 [["x"], ["y"]] [⟨"name", "Name"⟩] true ""
      ⟨[⟨0, false, payloadToFields [("name", some "x")]⟩,
        ⟨1, false, payloadToFields [("name", some "y"), ("outreach_method", none)]⟩], 2⟩
      ⟨[⟨0, "name", some "Ann", some "x"⟩],
        [⟨1, false, payloadToFields [("name", some "y"), ("outreach_method", none)]⟩]⟩
      (by unfold WFState; decide) (by decide)).1,
    (c1_applyMatrix_undo_redo ⟨[⟨0, false, payloadToFields [("name", some "Ann")]⟩], 1⟩
      0 0 [["x"], ["y"]] [⟨"name", "Name"⟩] true ""
      ⟨[⟨0, false, payloadToFields [("name", some "x")]⟩,
        ⟨1, false, payloadToFields [("name", some "y"), ("outreach_method", none)]⟩], 2⟩
      ⟨[⟨0, "name", some "Ann", some "x"⟩],
        [⟨1, false, payloadToFields [("name", some "y"), ("outreach_method", none)]⟩]⟩
      (by unfold WFState; decide) (by decide)).2⟩

theorem withIdx_append {α : Type} (l1 l2 : List α) (n : Nat) :
    withIdx (l1 ++ l2) n = withIdx l1 n ++ withIdx l2 (n + l1.length) := by
  induction l1 generalizing n with
  | nil => simp [withIdx]
  | cons x l1 ih =>
    show (x, n) :: withIdx (l1 ++ l2) (n + 1) =
      ((x, n) :: withIdx l1 (n + 1)) ++ withIdx l2 (n + (x :: l1).length)
    rw [List.cons_append, ih (n + 1)]
    have harg : n + 1 + l1.length = n + (x :: l1).length := by
      simp only [List.length_cons]
      omega
    rw [harg]

theorem planRow_none_skip {filtered : List Lead} {ri : Nat} (payload : Payload)
    (h : filtered.get? ri = none) :
    planRow filtered false ri payload = RowPlan.skip := by
  rw [planRow, h]
  rfl

theorem planInsert_planRow_false (filtered : List Lead) (ri : Nat) (payload : Payload) :
    planInsert (planRow filtered false ri payload) = none := by
  cases hg : filtered.get? ri with
  | none =>
    rw [planRow, hg]
    rfl
  | some t =>
    rw [planRow, hg]
    show planInsert (if payload.isEmpty = true then RowPlan.skip
      else RowPlan.upd t payload) = none
    by_cases hemp : payload.isEmpty = true
    · rw [if_pos hemp]
      rfl
    · rw [if_neg hemp]
      rfl

theorem planMatrix_drop_skip (filtered : List Lead) (fs : List LeadField)
    (sr sc : Nat) (matrix : List (List String)) :
    ∀ pl ∈ (withIdx (matrix.drop (filtered.length - sr))
        ((matrix.take (filtered.length - sr)).length)).map (fun rw =>
      planRow filtered false (sr + rw.2) (buildRowPayload fs sc rw.1)),
      pl = RowPlan.skip := by
  intro pl hpl
  rcases List.mem_map.mp hpl with ⟨rw, hrw, he⟩
  have hge := withIdx_snd_ge _ _ rw hrw
  have hne : matrix.drop (filtered.length - sr) ≠ [] := by
    intro hnil
    rw [hnil] at hrw
    cases hrw
  have hklen : filtered.length - sr < matrix.length := by
    by_contra hc
    exact hne (List.drop_eq_nil_of_le (by omega))
  have htl : (matrix.take (filtered.length - sr)).length = filtered.length - sr := by
    rw [List.length_take]
    omega
  rw [htl] at hge
  rw [← he, planRow_none_skip]
  rw [List.get?_eq_none]
  omega

theorem planMatrix_take_split (filtered : List Lead) (fs : List LeadField)
    (sr sc : Nat) (matrix : List (List String)) (k : Nat) :
    planMatrix filtered fs sr sc false matrix =
      planMatrix filtered fs sr sc false (matrix.take k) ++
        (withIdx (matrix.drop k) ((matrix.take k).length)).map (fun rw =>
          planRow filtered false (sr + rw.2) (buildRowPayload fs sc rw.1)) := by
  rw [planMatrix, planMatrix]
  conv_lhs => rw [← List.take_append_drop k matrix]
  rw [withIdx_append, List.map_append, Nat.zero_add]

/-- C6: with the auto-add-rows preference off, every matrix row whose target
visible-row index falls at or beyond the visible row count is a no-op —
applying the matrix equals applying its truncation to the in-range rows, the
lead count never grows, and a pushed action carries no inserted records (the
model is total, so no error can arise either). -/
theorem c6_autoAdd_off_out_of_range (startRow startCol : Nat)
    (matrix : List (List String)) (orderedFields : List LeadField)
    (searchQuery : String) (st : StoreState) :
    applyMatrix startRow startCol matrix orderedFields false searchQuery st =
      applyMatrix startRow startCol
        (matrix.take ((msFilteredLeads searchQuery st.leads).length - startRow))
        orderedFields false searchQuery st ∧
    (applyMatrix startRow startCol matrix orderedFields false searchQuery st).1.leads.length
      = st.leads.length ∧
    (∀ a, (applyMatrix startRow startCol matrix orderedFields false searchQuery st).2 = some a →
      a.insertedRows = []) := by
  have hinsall : ∀ (m : List (List String)),
      (planMatrix (msFilteredLeads searchQuery st.leads) orderedFields
        startRow startCol false m).filterMap planInsert = [] := by
    intro m
    rw [List.filterMap_eq_nil]
    intro pl hpl
    rcases List.mem_map.mp hpl with ⟨rw, _, he⟩
    rw [← he]
    exact planInsert_planRow_false _ _ _
  have htail := planMatrix_drop_skip (msFilteredLeads searchQuery st.leads) orderedFields
    startRow startCol matrix
  have hsplit := planMatrix_take_split (msFilteredLeads searchQuery st.leads) orderedFields
    startRow startCol matrix ((msFilteredLeads searchQuery st.leads).length - startRow)
  have hupd : (planMatrix (msFilteredLeads searchQuery st.leads) orderedFields
      startRow startCol false matrix).filterMap planUpdate =
      (planMatrix (msFilteredLeads searchQuery st.leads) orderedFields startRow startCol false
        (matrix.take ((msFilteredLeads searchQuery st.leads).length - startRow))).filterMap
        planUpdate := by
    rw [hsplit, List.filterMap_append]
    have : ((withIdx (matrix.drop ((msFilteredLeads searchQuery st.leads).length - startRow))
        ((matrix.take ((msFilteredLeads searchQuery st.leads).length - startRow)).length)).map
        (fun rw => planRow (msFilteredLeads searchQuery st.leads) false (startRow + rw.2)
          (buildRowPayload orderedFields startCol rw.1))).filterMap planUpdate = [] := by
      rw [List.filterMap_eq_nil]
      intro pl hpl
      rw [htail pl hpl]
      rfl
    rw [this, List.append_nil]
  have hch : ((planMatrix (msFilteredLeads searchQuery st.leads) orderedFields
      startRow startCol false matrix).map planChanges).flatten =
      ((planMatrix (msFilteredLeads searchQuery st.leads) orderedFields startRow startCol false
        (matrix.take ((msFilteredLeads searchQuery st.leads).length - startRow))).map
        planChanges).flatten := by
    rw [hsplit, List.map_append, List.flatten_append]
    have : (((withIdx (matrix.drop ((msFilteredLeads searchQuery st.leads).length - startRow))
        ((matrix.take ((msFilteredLeads searchQuery st.leads).length - startRow)).length)).map
        (fun rw => planRow (msFilteredLeads searchQuery st.leads) false (startRow + rw.2)
          (buildRowPayload orderedFields startCol rw.1))).map planChanges).flatten = [] := by
      rw [List.flatten_eq_nil_iff]
      intro l hl
      rcases List.mem_map.mp hl with ⟨pl, hpl, he⟩
      rw [← he, htail pl hpl]
      rfl
    rw [this, List.append_nil]
  have hmain : applyMatrix startRow startCol matrix orderedFields false searchQuery st =
      applyMatrix startRow startCol
        (matrix.take ((msFilteredLeads searchQuery st.leads).length - startRow))
        orderedFields false searchQuery st := by
    by_cases hm1 : matrix.isEmpty = true
    · have : matrix = [] := List.isEmpty_iff.mp hm1
      rw [this, List.take_nil]
    · rw [applyMatrix, if_neg hm1, applyMatrix]
      by_cases hm2 : (matrix.take
          ((msFilteredLeads searchQuery st.leads).length - startRow)).isEmpty = true
      · rw [if_pos hm2]
        have htake : matrix.take ((msFilteredLeads searchQuery st.leads).length - startRow)
            = [] := List.isEmpty_iff.mp hm2
        have hupd2 : (planMatrix (msFilteredLeads searchQuery st.leads) orderedFields
            startRow startCol false matrix).filterMap planUpdate = [] := by
          rw [hupd, htake]
          rfl
        have hch2 : ((planMatrix (msFilteredLeads searchQuery st.leads) orderedFields
            startRow startCol false matrix).map planChanges).flatten = [] := by
          rw [hch, htake]
          rfl
        dsimp only
        rw [hupd2, hch2, hinsall]
        simp [runUpdates, mkInserted, withIdx]
      · rw [if_neg hm2]
        dsimp only
        rw [hupd, hch, hinsall, hinsall]
  refine ⟨hmain, ?_, ?_⟩
  · by_cases hm1 : matrix.isEmpty = true
    · rw [applyMatrix, if_pos hm1]
    · rw [applyMatrix, if_neg hm1]
      dsimp only
      rw [hinsall]
      simp only [mkInserted, withIdx, List.map_nil, List.append_nil]
      have := runUpdates_map_id ((planMatrix (msFilteredLeads searchQuery st.leads)
        orderedFields startRow startCol false matrix).filterMap planUpdate) st.leads
      have hlen := congrArg List.length this
      simpa using hlen
  · intro a ha
    by_cases hm1 : matrix.isEmpty = true
    · rw [applyMatrix, if_pos hm1] at ha
      cases ha
    · rw [applyMatrix, if_neg hm1] at ha
      dsimp only at ha
      rw [hinsall] at ha
      simp only [List.isEmpty_nil, Bool.not_true, Bool.false_eq_true, if_false] at ha
      split at ha
      · cases ha
        rfl
      · cases ha

/-- C7: a header-mapped paste whose first row matches fewer than two known
field keys or labels (case-insensitively, after trimming) consumes no row as a
header: the full matrix, first row included, goes through the standard
anchor-based apply at column 0.  This covers both the zero-match and the
one-match first row. -/
theorem c7_header_map_fallback (startRow : Nat) (matrix : List (List String))
    (orderedFields : List LeadField) (autoAddRows : Bool) (searchQuery : String)
    (st : StoreState)
    (h : ((((matrix.headD []).map (fun v => jsToLower (jsTrim v))).map
      (fieldMapGet orderedFields)).filter (fun o => o.isSome)).length < 2) :
    applyMatrixWithHeaderMap startRow matrix orderedFields autoAddRows searchQuery st =
      applyMatrix startRow 0 matrix orderedFields autoAddRows searchQuery st := by
  rw [applyMatrixWithHeaderMap]
  by_cases h2 : matrix.length < 2
  · rw [if_pos h2]
  · rw [if_neg h2]
    dsimp only
    rw [if_pos h]

theorem c7_header_map_fallback_witness :
    (((([["Name", "junk"], ["Ann", "x"]].headD
        ([] : List String)).map (fun v => jsToLower (jsTrim v))).map
      (fieldMapGet [⟨"name", "Name"⟩, ⟨"email", "Email"⟩])).filter
        (fun o => o.isSome)).length < 2 ∧
    applyMatrixWithHeaderMap 0 [["Name", "junk"], ["Ann", "x"]]
        [⟨"name", "Name"⟩, ⟨"email", "Email"⟩] false "" ⟨[], 5⟩ =
      applyMatrix 0 0 [["Name", "junk"], ["Ann", "x"]]
        [⟨"name", "Name"⟩, ⟨"email", "Email"⟩] false "" ⟨[], 5⟩ :=
  ⟨by decide,
    c7_header_map_fallback 0 [["Name", "junk"], ["Ann", "x"]]
      [⟨"name", "Name"⟩, ⟨"email", "Email"⟩] false "" ⟨[], 5⟩ (by decide)⟩

theorem withIdx_get? {α : Type} : ∀ (l : List α) (n : Nat) (q : α × Nat),
    q ∈ withIdx l n → n ≤ q.2 ∧ l.get? (q.2 - n) = some q.1 := by
  intro l
  induction l with
  | nil => intro n q hq; cases hq
  | cons x xs ih =>
    intro n q hq
    rcases List.mem_cons.mp hq with h1 | h1
    · subst h1
      exact ⟨Nat.le_refl n, by simp⟩
    · rcases ih (n + 1) q h1 with ⟨hle, hget⟩
      refine ⟨by omega, ?_⟩
      have : q.2 - n = (q.2 - (n + 1)) + 1 := by omega
      rw [this]
      simpa using hget

theorem mappedRow_foldl_length (cm : List (Option Nat)) :
    ∀ (pairs : List (String × Nat)) (out : List String),
    (pairs.foldl (fun out ci =>
      match cm.get? ci.2 with
      | some (some j) => out.set j ci.1
      | _ => out) out).length = out.length := by
  intro pairs
  induction pairs with
  | nil => intro out; rfl
  | cons pr pairs ih =>
    intro out
    rw [List.foldl_cons]
    cases hcm : cm.get? pr.2 with
    | none => simpa [hcm] using ih out
    | some o =>
      cases o with
      | none => simpa [hcm] using ih out
      | some j =>
        have := ih (out.set j pr.1)
        simpa [hcm, List.length_set] using this

theorem mappedRowOf_length (numFields : Nat) (cm : List (Option Nat))
    (row : List String) : (mappedRowOf numFields cm row).length = numFields := by
  rw [mappedRowOf]
  rw [mappedRow_foldl_length cm (withIdx row 0) (List.replicate numFields "")]
  exact List.length_replicate numFields ""

theorem mappedRow_foldl_provenance (cm : List (Option Nat)) (C : Nat → String → Prop) :
    ∀ (pairs : List (String × Nat)) (out : List String),
    (∀ j v, out.get? j = some v → v ≠ "" → C j v) →
    (∀ pr ∈ pairs, ∀ j, cm.get? pr.2 = some (some j) → C j pr.1) →
    ∀ j v, (pairs.foldl (fun out ci =>
      match cm.get? ci.2 with
      | some (some j) => out.set j ci.1
      | _ => out) out).get? j = some v → v ≠ "" → C j v := by
  intro pairs
  induction pairs with
  | nil => intro out hout _ j v hget hne; exact hout j v hget hne
  | cons pr pairs ih =>
    intro out hout hprs j v hget hne
    rw [List.foldl_cons] at hget
    cases hcm : cm.get? pr.2 with
    | none =>
      rw [hcm] at hget
      exact ih out hout (fun q hq => hprs q (List.mem_cons_of_mem _ hq)) j v hget hne
    | some o =>
      cases o with
      | none =>
        rw [hcm] at hget
        exact ih out hout (fun q hq => hprs q (List.mem_cons_of_mem _ hq)) j v hget hne
      | some j0 =>
        rw [hcm] at hget
        refine ih (out.set j0 pr.1) ?_ (fun q hq => hprs q (List.mem_cons_of_mem _ hq))
          j v hget hne
        intro j' v' hget' hne'
        by_cases hj : j0 = j'
        · subst hj
          rw [List.get?_set_eq] at hget'
          cases hg0 : out.get? j0 with
          | none => rw [hg0] at hget'; cases hget'
          | some w =>
            rw [hg0] at hget'
            have : v' = pr.1 := by
              simpa using hget'.symm
            rw [this]
            exact hprs pr (List.mem_cons_self _ _) j0 hcm
        · rw [List.get?_set_ne _ _ hj] at hget'
          exact hout j' v' hget' hne'

/-- C9: when the header mapping engages (at least two first-row cells match a
field key or label), the data rows are remapped to full-width rows applied at
anchor column 0, every remapped row spans exactly the visible column list, and
every non-empty cell of a remapped row comes from a data-row column whose
header matched that field — a cell in a column whose header matched nothing is
never written anywhere. -/
theorem c9_header_map_engaged (startRow : Nat) (m0 : List String)
    (rest : List (List String)) (orderedFields : List LeadField) (autoAddRows : Bool)
    (searchQuery : String) (st : StoreState) (cm : List (Option Nat))
    (hcm : cm = ((m0.map (fun v => jsToLower (jsTrim v))).map (fieldMapGet orderedFields)))
    (hrest : rest ≠ [])
    (hmc : 2 ≤ ((cm.filter (fun o => o.isSome)).length)) :
    applyMatrixWithHeaderMap startRow (m0 :: rest) orderedFields autoAddRows searchQuery st =
      applyMatrix startRow 0 (rest.map (mappedRowOf orderedFields.length cm))
        orderedFields autoAddRows searchQuery st ∧
    (∀ row ∈ rest, (mappedRowOf orderedFields.length cm row).length
      = orderedFields.length) ∧
    (∀ row ∈ rest, ∀ j v, (mappedRowOf orderedFields.length cm row).get? j = some v →
      v ≠ "" → ∃ idx, cm.get? idx = some (some j) ∧ row.get? idx = some v) := by
  subst hcm
  refine ⟨?_, ?_, ?_⟩
  · rw [applyMatrixWithHeaderMap]
    have h2 : ¬(m0 :: rest).length < 2 := by
      cases rest with
      | nil => exact absurd rfl hrest
      | cons r rs =>
        simp only [List.length_cons]
        omega
    rw [if_neg h2]
    dsimp only
    simp only [List.headD_cons, List.tail_cons]
    rw [if_neg (by omega)]
  · intro row _
    exact mappedRowOf_length _ _ row
  · intro row _ j v hget hne
    rw [mappedRowOf] at hget
    refine mappedRow_foldl_provenance
      ((m0.map (fun v => jsToLower (jsTrim v))).map (fieldMapGet orderedFields))
      (fun j v => ∃ idx,
        ((m0.map (fun v => jsToLower (jsTrim v))).map
          (fieldMapGet orderedFields)).get? idx = some (some j) ∧ row.get? idx = some v)
      (withIdx row 0) (List.replicate _ "")
      ?_ ?_ j v hget hne
    · intro j' v' hget' hne'
      have := List.eq_of_mem_replicate (List.get?_mem hget')
      exact absurd this hne'
    · intro pr hpr j' hcm'
      rcases withIdx_get? row 0 pr hpr with ⟨_, hg⟩
      refine ⟨pr.2, hcm', ?_⟩
      simpa using hg

theorem c9_header_map_engaged_witness :
    ([["Ann", "zzz", "a@b"]] : List (List String)) ≠ [] ∧
    2 ≤ ((((["Name", "junk", "Email"].map (fun v => jsToLower (jsTrim v))).map
      (fieldMapGet [⟨"name", "Name"⟩, ⟨"email", "Email"⟩])).filter
        (fun o => o.isSome)).length) ∧
    applyMatrixWithHeaderMap 0 (["Name", "junk", "Email"] :: [["Ann", "zzz", "a@b"]])
        [⟨"name", "Name"⟩, ⟨"email", "Email"⟩] false "" ⟨[], 3⟩ =
      applyMatrix 0 0 ([["Ann", "zzz", "a@b"]].map (mappedRowOf 2
        ((["Name", "junk", "Email"].map (fun v => jsToLower (jsTrim v))).map
          (fieldMapGet [⟨"name", "Name"⟩, ⟨"email", "Email"⟩]))))
        [⟨"name", "Name"⟩, ⟨"email", "Email"⟩] false "" ⟨[], 3⟩ :=
  ⟨by decide, by decide,
    (c9_header_map_engaged 0 ["Name", "junk", "Email"] [["Ann", "zzz", "a@b"]]
      [⟨"name", "Name"⟩, ⟨"email", "Email"⟩] false "" ⟨[], 3⟩
      ((["Name", "junk", "Email"].map (fun v => jsToLower (jsTrim v))).map
        (fieldMapGet [⟨"name", "Name"⟩, ⟨"email", "Email"⟩]))
      rfl (by decide) (by decide)).1⟩

/-- C2: the fill deriver does not extend ["Jan 1 2024", "Jan 2 2024"] by a
calendar-day stride: both values end in the digit run "2024", so the
trailing-digit branch fires before the date branch with step 2024 - 2024 = 0,
and the destination repeats "Jan 1 2024" — three equal values, not three
consecutive calendar days. -/
theorem c2_counterexample :
    fillColumn ["Jan 1 2024", "Jan 2 2024"] 3 =
      ["Jan 1 2024", "Jan 1 2024", "Jan 1 2024"] ∧
    (["Jan 1 2024", "Jan 1 2024", "Jan 1 2024"] : List String) ≠
      ["2024-01-01", "2024-01-02", "2024-01-03"] := by
  refine ⟨?_, ?_⟩ <;> decide

theorem frac_trunc_intMul (K c : Int) (hc : 0 < c) :
    Frac.trunc ⟨K * c, c⟩ = K := by
  rw [Frac.trunc]
  by_cases hK : 0 ≤ K * c
  · rw [if_pos hK]
    exact Int.mul_ediv_cancel K (by omega)
  · rw [if_neg hK]
    have h1 : (-(K * c) : Int) = -K * c := by ring
    dsimp only
    rw [h1, Int.mul_ediv_cancel (-K) (by omega)]
    omega

theorem frac_date_value (d1 diff : Int) (r : Nat) :
    Frac.trunc (Frac.add (Frac.ofInt d1)
      (Frac.mul (Frac.mul (Frac.divInt (Frac.ofInt diff) 86400000)
        (Frac.ofNat r)) (Frac.ofNat 86400000))) = d1 + diff * r := by
  have he : Frac.add (Frac.ofInt d1)
      (Frac.mul (Frac.mul (Frac.divInt (Frac.ofInt diff) 86400000)
        (Frac.ofNat r)) (Frac.ofNat 86400000)) =
      ⟨(d1 + diff * r) * 86400000, 86400000⟩ := by
    dsimp only [Frac.add, Frac.mul, Frac.divInt, Frac.ofInt, Frac.ofNat]
    congr 1
    ring
  rw [he, frac_trunc_intMul _ _ (by norm_num)]

/-- C2 (amended): the day-stride projection applies only when neither source
value parses as a number and neither ends in a trailing digit run (those
branches fire first); under those provisos, for source values parsing as
dates `d1` and `d2` (epoch ms), every destination row `r` receives the ISO
date of `d1 + (d2 - d1)*r` — the stride between the two dates, in whole days
when the dates are whole days apart. -/
theorem c2_amended (v1 v2 : String) (h : Nat) (d1 d2 : Int)
    (hn1 : jsNum (removeCommas v1) = none)
    (ht1 : parseTrailing v1 = none) (ht2 : parseTrailing v2 = none)
    (hd1 : dateMs v1 = some d1) (hd2 : dateMs v2 = some d2)
    (hv1 : v1 ≠ "") (hv2 : v2 ≠ "") :
    ∀ r, r < h → (fillColumn [v1, v2] h).get? r =
      some (isoSlice10 (d1 + (d2 - d1) * r)) := by
  intro r hr
  rw [fillColumn, List.get?_map, List.get?_range hr]
  show some (deriveFillValueCol [v1, v2] r) = _
  congr 1
  rw [deriveFillValueCol]
  simp only [List.get?, Option.getD_some, hn1, ht1, ht2, hd1, hd2,
    Option.isSome_none, Option.isSome_some, Bool.false_eq_true, false_and,
    if_false, true_and, and_true, ne_eq, hv1, hv2, not_false_eq_true, if_true]
  rw [frac_date_value d1 (d2 - d1) r]

theorem c2_amended_witness :
    jsNum (removeCommas "2024-01-01T00:00:00Z") = none ∧
    parseTrailing "2024-01-01T00:00:00Z" = none ∧
    parseTrailing "2024-01-02T00:00:00Z" = none ∧
    dateMs "2024-01-01T00:00:00Z" = some 1704067200000 ∧
    dateMs "2024-01-02T00:00:00Z" = some 1704153600000 ∧
    (fillColumn ["2024-01-01T00:00:00Z", "2024-01-02T00:00:00Z"] 3).get? 2 =
      some "2024-01-03" :=
  ⟨by decide, by decide, by decide, by decide, by decide,
    (c2_amended "2024-01-01T00:00:00Z" "2024-01-02T00:00:00Z" 3
      1704067200000 1704153600000 (by decide) (by decide) (by decide) (by decide)
      (by decide) (by decide) (by decide) 2 (by decide)).trans
      (congrArg some (by decide))⟩

theorem withIdx_filter_map (p : Lead → Bool) : ∀ (l : List Lead) (n : Nat),
    ((withIdx l n).filter (fun li => p li.1)).map (·.1) = l.filter p := by
  intro l
  induction l with
  | nil => intro n; rfl
  | cons x xs ih =>
    intro n
    rw [withIdx]
    by_cases hp : p x = true
    · simp only [List.filter_cons, hp, if_true, List.map_cons, ih (n + 1)]
    · simp only [List.filter_cons, hp, Bool.false_eq_true, if_false, ih (n + 1)]

/-- C4: deriving the visible rows filters first (free-text search ANDed with
every active per-field case-insensitive substring filter), then sorts by
pinned-before-unpinned, the sort rules in order (numeric when both values
parse as numbers, else lexicographic) and original position on full ties;
on the three-record example with rules age ascending then name descending the
derivation yields [{20,A}, {30,B}, {30,A}]; and for every input the result is
a permutation of the filtered records — the derivation reorders a copy and
never mutates the stored list, which is immutable in this model. -/
theorem c4_filteredLeads_derivation :
    filteredLeadsTemp
        [⟨1, false, payloadToFields [("age", some "30"), ("name", some "B")]⟩,
         ⟨2, false, payloadToFields [("age", some "20"), ("name", some "A")]⟩,
         ⟨3, false, payloadToFields [("age", some "30"), ("name", some "A")]⟩]
        "" [] [⟨"age", SortDir.asc⟩, ⟨"name", SortDir.desc⟩] =
      [⟨2, false, payloadToFields [("age", some "20"), ("name", some "A")]⟩,
       ⟨1, false, payloadToFields [("age", some "30"), ("name", some "B")]⟩,
       ⟨3, false, payloadToFields [("age", some "30"), ("name", some "A")]⟩] ∧
    ∀ (leads : List Lead) (q : String) (filters : List (String × String))
      (sorts : List SortRule),
      (filteredLeadsTemp leads q filters sorts).Perm
        (leads.filter (tlPred (jsToLower (jsTrim q))
          (filters.filter (fun kv => (jsTrim kv.2).length > 0)))) := by
  refine ⟨by decide, ?_⟩
  intro leads q filters sorts
  rw [filteredLeadsTemp]
  have hperm := List.perm_insertionSort
    (fun a b => entryCmp sorts a b ≠ Ordering.gt)
    ((withIdx leads 0).filter (fun li =>
      tlPred (jsToLower (jsTrim q))
        (filters.filter (fun kv => (jsTrim kv.2).length > 0)) li.1))
  refine (hperm.map (·.1)).trans ?_
  rw [withIdx_filter_map]

/-- C10: loading grid preferences is total; with no stored entry for the
view, or with stored text the JSON parser rejects, `loadGridPrefs` returns
`defaultPrefs`, whose `autoAddRows` is true — a fresh view starts with
auto-add-rows on paste enabled. -/
theorem c10_loadGridPrefs_defaults (hasWindow : Bool)
    (storage : String → Option String) (parseJson : String → Option ParsedPrefs)
    (key : String)
    (h : ∀ raw, storage ("gridPrefs:" ++ key) = some raw → parseJson raw = none) :
    loadGridPrefs hasWindow storage parseJson key = defaultPrefs ∧
      defaultPrefs.autoAddRows = true := by
  refine ⟨?_, rfl⟩
  cases hasWindow with
  | false => rfl
  | true =>
    cases hs : storage ("gridPrefs:" ++ key) with
    | none => simp [loadGridPrefs, hs]
    | some raw => simp [loadGridPrefs, hs, h raw hs]

theorem c10_loadGridPrefs_defaults_witness :
    (∀ raw, (fun (_ : String) => (none : Option String)) ("gridPrefs:" ++ "master")
      = some raw → (fun (_ : String) => (none : Option ParsedPrefs)) raw = none) ∧
    loadGridPrefs true (fun _ => none) (fun _ => none) "master" = defaultPrefs ∧
      defaultPrefs.autoAddRows = true :=
  ⟨(fun _ hr => by cases hr),
    c10_loadGridPrefs_defaults true (fun _ => none) (fun _ => none) "master"
      (fun _ hr => by cases hr)⟩
